import Mathlib

/-!
Verification development for the guitarians-scraping-tools repository.

The repository consists of `scrape_user_chords.py` (the link harvester) and
`process_user_chords.py` (the pipeline orchestrator).  The harvester's URL
handling is CPython's `urllib.parse` (`urljoin`, `urlparse`), which we embed
faithfully below at the level of character lists: the WHATWG C0-control/space
leading strip of `urlsplit` (the CVE-2023-24329 fix), the unsafe-byte removal,
scheme detection and lowercasing, the netloc/fragment/query splits, and
`urlparse`'s params split guarded by `scheme in uses_params`.  Not modelled
(reject-only exotica that no claim touches): the NFKC netloc check and the
validation of the address inside a *balanced* bracketed host, both of which
only reject additional inputs; unbalanced brackets in the authority component
— the only bracket error an input of this program can actually reach — are
modelled exactly (`urlsplit` returns `none` where CPython raises
`ValueError`).
-/

/-- A WHATWG C0 control or the space character, code points 0x00–0x20
(CPython `_WHATWG_C0_CONTROL_OR_SPACE`). -/
def isC0OrSpace (c : Char) : Bool := c.toNat ≤ 32

/-- `url.lstrip(_WHATWG_C0_CONTROL_OR_SPACE)`: the leading strip CPython
`urlsplit` applies to the URL (the CVE-2023-24329 fix). -/
def lstripC0 (l : List Char) : List Char := l.dropWhile isC0OrSpace

/-- `scheme.strip(_WHATWG_C0_CONTROL_OR_SPACE)`: the two-sided strip CPython
`urlsplit` applies to the default scheme. -/
def stripC0 (l : List Char) : List Char :=
  ((l.dropWhile isC0OrSpace).reverse.dropWhile isC0OrSpace).reverse

/-- Characters removed from a URL before parsing (CPython `_UNSAFE_URL_BYTES_TO_REMOVE`). -/
def unsafeUrlChars : List Char := ['\t', '\r', '\n']

/-- Remove tab, carriage return and newline, as CPython `urlsplit` does first. -/
def sanitize (l : List Char) : List Char := l.filter (fun c => !(unsafeUrlChars.contains c))

/-- Characters permitted in a scheme (CPython `scheme_chars`). -/
def isSchemeChar (c : Char) : Bool := c.isAlpha || c.isDigit || c == '+' || c == '-' || c == '.'

/-- Split off the scheme: CPython finds the first `':'` (`dropWhile` non-empty,
at a positive index: `takeWhile` non-empty), requires an alphabetic first
character and scheme characters throughout the candidate, and lowercases it.
Returns `(scheme, rest)`, with `([], url)` when no scheme is recognised. -/
def splitScheme (l : List Char) : List Char × List Char :=
  if l.dropWhile (· != ':') ≠ [] ∧ l.takeWhile (· != ':') ≠ [] ∧
      ((l.takeWhile (· != ':')).headD 'x').isAlpha ∧ (l.takeWhile (· != ':')).all isSchemeChar
  then ((l.takeWhile (· != ':')).map Char.toLower, (l.dropWhile (· != ':')).tail)
  else ([], l)

/-- A character ending the netloc component (CPython `_splitnetloc` delimiters `/?#`). -/
def isNetlocDelim (c : Char) : Bool := c == '/' || c == '?' || c == '#'

/-- Split off the network location when the remainder starts with `//`
(CPython `url[:2] == '//'` and `_splitnetloc(url, 2)`). -/
def splitNetloc (l : List Char) : List Char × List Char :=
  if l.take 2 = ['/', '/'] then
    ((l.drop 2).takeWhile (fun c => !(isNetlocDelim c)),
     (l.drop 2).dropWhile (fun c => !(isNetlocDelim c)))
  else ([], l)

/-- Split at the first occurrence of `ch`: `(before, after)`, `(l, [])` when absent.
This is CPython's `url.split(ch, 1)` pattern used for `#` and `?`. -/
def splitAtChar (ch : Char) (l : List Char) : List Char × List Char :=
  (l.takeWhile (· != ch), (l.dropWhile (· != ch)).tail)

/-- CPython `urlsplit` raises `ValueError` when the netloc has `[` without `]` or
vice versa; `true` means the netloc is acceptable. -/
def bracketsOk (n : List Char) : Bool := n.contains '[' == n.contains ']'

/-- Result of `urlsplit`. -/
structure SplitUrl where
  scheme : List Char
  netloc : List Char
  path : List Char
  query : List Char
  fragment : List Char
deriving DecidableEq, Repr

/-- CPython `urllib.parse.urlsplit url scheme0` with `allow_fragments=True`:
the URL is first `lstrip`ped of C0 controls and spaces and the default scheme
`strip`ped of them, then the unsafe bytes are removed; `none` models the
`ValueError` on unbalanced netloc brackets. -/
def urlsplit (url scheme0 : List Char) : Option SplitUrl :=
  let u0 := sanitize (lstripC0 url)
  let d0 := sanitize (stripC0 scheme0)
  let sp := splitScheme u0
  let sch := if sp.1 = [] then d0 else sp.1
  let np := splitNetloc sp.2
  if bracketsOk np.1 then
    let fp := splitAtChar '#' np.2
    let qp := splitAtChar '?' fp.1
    some ⟨sch, np.1, qp.1, qp.2, fp.2⟩
  else none

/-- The part of a path after its last `'/'` (the whole path when it has none). -/
def lastSegment (p : List Char) : List Char := (p.reverse.takeWhile (· != '/')).reverse

/-- CPython `_splitparams`: split `;params` off the last path segment.
Returns `(path, params)` with `params = []` when there is nothing to split. -/
def splitParams (p : List Char) : List Char × List Char :=
  if p.contains '/' then
    let rev := p.reverse
    let seg := (rev.takeWhile (· != '/')).reverse
    if seg.contains ';' then
      ((rev.dropWhile (· != '/')).reverse ++ seg.takeWhile (· != ';'),
       (seg.dropWhile (· != ';')).tail)
    else (p, [])
  else if p.contains ';' then (p.takeWhile (· != ';'), (p.dropWhile (· != ';')).tail)
  else (p, [])

/-- Result of `urlparse`. -/
structure ParsedUrl where
  scheme : List Char
  netloc : List Char
  path : List Char
  params : List Char
  query : List Char
  fragment : List Char
deriving DecidableEq, Repr

/-- CPython `uses_params`. -/
def usesParams : List (List Char) :=
  [[], "ftp".data, "hdl".data, "prospero".data, "http".data, "imap".data,
   "https".data, "shttp".data, "rtsp".data, "rtspu".data, "sip".data, "sips".data,
   "mms".data, "sftp".data, "tel".data]

/-- CPython `urlparse`'s guarded params split: `_splitparams` runs only when
`scheme in uses_params and ';' in url`; otherwise `params = ''`. -/
def paramsSplit (sch p : List Char) : List Char × List Char :=
  if sch ∈ usesParams ∧ p.contains ';' = true then splitParams p else (p, [])

/-- CPython `urllib.parse.urlparse`: `urlsplit` followed by the guarded params
split. -/
def urlparse (url scheme0 : List Char) : Option ParsedUrl :=
  (urlsplit url scheme0).map (fun s =>
    let pp := paramsSplit s.scheme s.path
    ⟨s.scheme, s.netloc, pp.1, pp.2, s.query, s.fragment⟩)

/-- CPython `uses_relative`. -/
def usesRelative : List (List Char) :=
  [[], "ftp".data, "http".data, "gopher".data, "nntp".data, "imap".data, "wais".data,
   "file".data, "https".data, "shttp".data, "mms".data, "prospero".data, "rtsp".data,
   "rtspu".data, "sftp".data, "svn".data, "svn+ssh".data, "ws".data, "wss".data]

/-- CPython `uses_netloc`. -/
def usesNetloc : List (List Char) :=
  [[], "ftp".data, "http".data, "gopher".data, "nntp".data, "telnet".data, "imap".data,
   "wais".data, "file".data, "mms".data, "https".data, "shttp".data, "snews".data,
   "prospero".data, "rtsp".data, "rtspu".data, "rsync".data, "svn".data, "svn+ssh".data,
   "sftp".data, "nfs".data, "git".data, "git+ssh".data, "ws".data, "wss".data,
   "itms-services".data]

/-- CPython `urlunsplit`. -/
def urlunsplit (s n p q f : List Char) : List Char :=
  let u1 := if n ≠ [] ∨ p.take 2 = ['/', '/'] then
      '/' :: '/' :: (n ++ (if p ≠ [] ∧ p.head? ≠ some '/' then '/' :: p else p))
    else p
  let u2 := if s ≠ [] then s ++ ':' :: u1 else u1
  let u3 := if q ≠ [] then u2 ++ '?' :: q else u2
  if f ≠ [] then u3 ++ '#' :: f else u3

/-- CPython `urlunparse`: reattach `;params` to the path, then `urlunsplit`. -/
def urlunparse (s n p par q f : List Char) : List Char :=
  urlunsplit s n (if par ≠ [] then p ++ ';' :: par else p) q f

/-- Python `str.split('/')`. -/
def splitSlash : List Char → List (List Char)
  | [] => [[]]
  | '/' :: rest => [] :: splitSlash rest
  | c :: rest =>
    match splitSlash rest with
    | [] => [[c]]
    | s :: ss => (c :: s) :: ss

/-- Python `'/'.join`. -/
def joinSlash : List (List Char) → List Char
  | [] => []
  | [s] => s
  | s :: ss => s ++ '/' :: joinSlash ss

/-- CPython `urljoin`'s `segments[1:-1] = filter(None, segments[1:-1])`:
drop empty segments strictly between the first and the last. -/
def filterMiddle : List (List Char) → List (List Char)
  | [] => []
  | [a] => [a]
  | a :: b :: rest =>
    a :: (((b :: rest).dropLast.filter (fun s => !s.isEmpty)) ++ [(b :: rest).getLastD []])

/-- One step of CPython `urljoin`'s dot-segment resolution loop. -/
def dotStep (acc : List (List Char)) (seg : List Char) : List (List Char) :=
  if seg = ['.', '.'] then acc.dropLast
  else if seg = ['.'] then acc
  else acc ++ [seg]

/-- CPython `urllib.parse.urljoin`; `none` models a `ValueError` escaping from
either internal parse (a `ValueError` from the parses aborts the join, which
`Option.bind`/`Option.map` render). -/
def urljoin (base url : List Char) : Option (List Char) :=
  if base = [] then some url
  else if url = [] then some base
  else
    (urlparse base []).bind (fun b =>
      (urlparse url b.scheme).map (fun r =>
        if r.scheme ≠ b.scheme ∨ r.scheme ∉ usesRelative then url
        else if r.scheme ∈ usesNetloc ∧ r.netloc ≠ [] then
          urlunparse r.scheme r.netloc r.path r.params r.query r.fragment
        else
          let nl := if r.scheme ∈ usesNetloc then b.netloc else r.netloc
          if r.path = [] ∧ r.params = [] then
            let q := if r.query = [] then b.query else r.query
            urlunparse r.scheme nl b.path b.params q r.fragment
          else
            let baseParts0 := splitSlash b.path
            let baseParts := if baseParts0.getLastD [] ≠ [] then baseParts0.dropLast else baseParts0
            let segments :=
              if r.path.head? = some '/' then splitSlash r.path
              else filterMiddle (baseParts ++ splitSlash r.path)
            let resolved0 := segments.foldl dotStep []
            let resolved :=
              if segments.getLastD [] = ['.', '.'] ∨ segments.getLastD [] = ['.'] then
                resolved0 ++ [[]]
              else resolved0
            let rp0 := joinSlash resolved
            let rp := if rp0 = [] then ['/'] else rp0
            urlunparse r.scheme nl rp r.params r.query r.fragment))

/-- The fixed base host of `scrape_user_chords.py` (`base_url`). -/
def guitariansBase : List Char := "https://zh-hk.guitarians.com".data

/-- The parse of the constant base URL (value checked below by `decide`). -/
def baseParsed : ParsedUrl := ⟨"https".data, "zh-hk.guitarians.com".data, [], [], [], []⟩

/-- The body of `urljoin` after both parses succeed, with the components of the
constant base inlined (the base parses to `baseParsed`); mirrors `urljoin`
line by line. -/
def joinBranch (r : ParsedUrl) (u : List Char) : List Char :=
  if r.scheme ≠ baseParsed.scheme ∨ r.scheme ∉ usesRelative then u
  else if r.scheme ∈ usesNetloc ∧ r.netloc ≠ [] then
    urlunparse r.scheme r.netloc r.path r.params r.query r.fragment
  else
    let nl := if r.scheme ∈ usesNetloc then baseParsed.netloc else r.netloc
    if r.path = [] ∧ r.params = [] then
      let q := if r.query = [] then baseParsed.query else r.query
      urlunparse r.scheme nl baseParsed.path baseParsed.params q r.fragment
    else
      let baseParts0 := splitSlash baseParsed.path
      let baseParts := if baseParts0.getLastD [] ≠ [] then baseParts0.dropLast else baseParts0
      let segments :=
        if r.path.head? = some '/' then splitSlash r.path
        else filterMiddle (baseParts ++ splitSlash r.path)
      let resolved0 := segments.foldl dotStep []
      let resolved :=
        if segments.getLastD [] = ['.', '.'] ∨ segments.getLastD [] = ['.'] then resolved0 ++ [[]]
        else resolved0
      let rp0 := joinSlash resolved
      let rp := if rp0 = [] then ['/'] else rp0
      urlunparse r.scheme nl rp r.params r.query r.fragment

/-- The dot-segment resolution of `urljoin`'s relative-path branch, factored
out of `joinBranch`: `baseParts` from the base path, `filterMiddle`, the
`dotStep` fold, trailing-dot handling, and the empty-result fallback. -/
def joinPath (p : List Char) : List Char :=
  let baseParts0 := splitSlash baseParsed.path
  let baseParts := if baseParts0.getLastD [] ≠ [] then baseParts0.dropLast else baseParts0
  let segments := if p.head? = some '/' then splitSlash p
    else filterMiddle (baseParts ++ splitSlash p)
  let resolved0 := segments.foldl dotStep []
  let resolved := if segments.getLastD [] = ['.', '.'] ∨ segments.getLastD [] = ['.'] then
      resolved0 ++ [[]] else resolved0
  let rp0 := joinSlash resolved
  if rp0 = [] then ['/'] else rp0

/-- The harvester's rebuild of a parse as `scheme://netloc path` plus
`?query` when the query is non-empty (`scrape_user_chords.py` lines 72–75). -/
def cleanParsed (p : ParsedUrl) : List Char :=
  let c := p.scheme ++ ':' :: '/' :: '/' :: (p.netloc ++ p.path)
  if p.query ≠ [] then c ++ '?' :: p.query else c

/-- Parse a URL (default scheme empty, as in `urlparse(full_url)`) and rebuild
its canonical form; `none` models the `ValueError`. -/
def cleanOf (l : List Char) : Option (List Char) := (urlparse l []).map cleanParsed

/-- The harvester's canonicalization of one href (`scrape_user_chords.py`
lines 69–76): resolve against the base with `urljoin`, re-parse, rebuild as
`scheme://netloc path` plus `?query` when the query is non-empty. -/
def canonChars (href : List Char) : Option (List Char) :=
  (urljoin guitariansBase href).bind cleanOf

/-- The canonical string built from explicit components, exactly as
`cleanParsed` builds it from a parse. -/
def cleanShape (s n p q : List Char) : List Char :=
  let c := s ++ ':' :: '/' :: '/' :: (n ++ p)
  if q ≠ [] then c ++ '?' :: q else c

/-- The query suffix `?query` of the canonical form (empty when the query is). -/
def optQ (q : List Char) : List Char := if q ≠ [] then '?' :: q else []

/-- The fragment suffix `#fragment` that `urlunsplit` appends last. -/
def optF (f : List Char) : List Char := if f ≠ [] then '#' :: f else []

/-- `urlunsplit`'s leading-slash insertion in front of a relative path when a
netloc is present. -/
def insertSlash (p : List Char) : List Char :=
  if p ≠ [] ∧ p.head? ≠ some '/' then '/' :: p else p

/-- `urlunparse`'s reattachment of `;params` to the path. -/
def paramsPath (p par : List Char) : List Char := if par ≠ [] then p ++ ';' :: par else p

/-- The invariant satisfied by the components of every canonicalized link:
what a parse of `cleanShape s n p q` needs in order to reproduce it. -/
structure CanonInv (s n p q : List Char) : Prop where
  scheme_ne : s ≠ []
  scheme_head : (s.headD 'x').isAlpha = true
  scheme_all : s.all isSchemeChar = true
  scheme_low : s.map Char.toLower = s
  netloc_ok : ∀ c ∈ n, isNetlocDelim c = false
  path_hash : '#' ∉ p
  path_query : '?' ∉ p
  query_hash : '#' ∉ q
  path_semi : s ∈ usesParams → ';' ∉ lastSegment p
  clean_s : sanitize s = s
  clean_n : sanitize n = n
  clean_p : sanitize p = p
  clean_q : sanitize q = q
  https_shape : s = "https".data → n ≠ [] ∧ (p = [] ∨ p.head? = some '/')

/-- A `SplitUrl` with the fragment forgotten (the components canonicalization
keeps). -/
def dropFragSplit (s : SplitUrl) : SplitUrl := ⟨s.scheme, s.netloc, s.path, s.query, []⟩

/-- A `ParsedUrl` with the fragment forgotten. -/
def dropFragParsed (p : ParsedUrl) : ParsedUrl :=
  ⟨p.scheme, p.netloc, p.path, p.params, p.query, []⟩

/-- String-level wrapper for `canonChars`. -/
def canonicalize (href : String) : Option String := (canonChars href.data).map (fun l => ⟨l⟩)

/-! ## The link harvester (`scrape_user_chords.py`) -/

/-- `as` starts with `needle` (element-wise equality). -/
def startsWithChars : List Char → List Char → Bool
  | [], _ => true
  | _ :: _, [] => false
  | a :: as, b :: bs => a == b && startsWithChars as bs

/-- Python's substring test `needle in hay`. -/
def hasSubstr (needle : List Char) : List Char → Bool
  | [] => needle.isEmpty
  | c :: rest => startsWithChars needle (c :: rest) || hasSubstr needle rest

/-- The harvester's filter `'/chord/' in href` (`scrape_user_chords.py` line 68). -/
def isChordHref (href : String) : Bool := hasSubstr "/chord/".data href.data

/-- The harvester's loop over the anchors' href attributes: keep each href that
contains `/chord/`, canonicalize it, collect the results.  `none` models the
`ValueError` that `urlparse` can raise escaping `scrape_user_chords` (the loop
aborts at the first failing href). -/
def scrapeLinks : List String → Option (List String)
  | [] => some []
  | h :: t =>
    if isChordHref h then
      match canonicalize h with
      | none => none
      | some c => (scrapeLinks t).map (fun ls => c :: ls)
    else scrapeLinks t

/-- Code-point lexicographic `≤` on character lists: Python's `<=` on `str`. -/
def lexLe : List Char → List Char → Bool
  | [], _ => true
  | _ :: _, [] => false
  | a :: as, b :: bs =>
    if a.toNat < b.toNat then true
    else if b.toNat < a.toNat then false
    else lexLe as bs

/-- Code-point lexicographic `<` on character lists: Python's `<` on `str`. -/
def lexLt : List Char → List Char → Bool
  | [], [] => false
  | [], _ :: _ => true
  | _ :: _, [] => false
  | a :: as, b :: bs =>
    if a.toNat < b.toNat then true
    else if b.toNat < a.toNat then false
    else lexLt as bs

/-- Python's `<=` on strings. -/
def strLe (s t : String) : Bool := lexLe s.data t.data

/-- Python's `<` on strings. -/
def strLt (s t : String) : Bool := lexLt s.data t.data

/-- Insert a string into a lexicographically sorted list, keeping it sorted. -/
def insertSorted (s : String) : List String → List String
  | [] => [s]
  | t :: ts => if strLe s t then s :: t :: ts else t :: insertSorted s ts

/-- Insertion sort by Python's string order; Python's `sorted` agrees with it
on duplicate-free input (any comparison sort of a set gives the same list). -/
def sortLinks : List String → List String
  | [] => []
  | s :: ss => insertSorted s (sortLinks ss)

/-- Python `sorted(set(links))`: deduplicate, then sort lexicographically. -/
def sortedDedup (links : List String) : List String := sortLinks links.dedup

/-- Python `'\n'.join`. -/
def joinLines : List String → String
  | [] => ""
  | [s] => s
  | s :: ss => s ++ "\n" ++ joinLines ss

/-- The manifest content written by the harvester (`scrape_user_chords.py`
lines 78–88): the deduplicated canonical links, sorted, one per line. -/
def manifestContent (links : List String) : String := joinLines (sortedDedup links)

/-- The whole post-fetch pipeline of the harvester, from the href attributes
found in the page to the manifest content (`none`: an exception escaped). -/
def scrapeManifest (hrefs : List String) : Option String :=
  (scrapeLinks hrefs).map manifestContent

/-- The path component of a link's parse — the "target path" in the spec's
sense (`none` models a parse `ValueError`). -/
def targetPathOf (link : String) : Option String :=
  (urlparse link.data []).map (fun p => ⟨p.path⟩)

/-- Outcome of one `scrape_user_chords` call, at the file-system interface:
`raised` is whether an exception escaped; `fs` the manifest file content after
the call (`pre` was its content before, `none` meaning the file is absent);
`warnedEmpty` whether the zero-links warning was printed. -/
structure ScrapeResult where
  raised : Bool
  fs : Option String
  warnedEmpty : Bool
deriving DecidableEq, Repr

/-- `scrape_user_chords` after the page content is in hand (lines 58–89):
collect the chord links; with zero links, warn and return without writing;
otherwise overwrite the manifest with the sorted deduplicated links. -/
def scrapeRun (hrefs : List String) (pre : Option String) : ScrapeResult :=
  match scrapeLinks hrefs with
  | none => ⟨true, pre, false⟩
  | some ls =>
    if sortedDedup ls = [] then ⟨false, pre, true⟩
    else ⟨false, some (manifestContent ls), false⟩

/-! ## The browser phase of the harvester (`scrape_user_chords.py` lines 36–53) -/

/-- Environment for the navigation phase: the outcome the browser driver gives
to `page.goto` and to the `wait_for_selector`/`wait_for_timeout` pair, and the
page content that `page.content()` returns afterwards. -/
structure BrowserEnv where
  navOutcome : Except String Unit
  waitOutcome : Except String Unit
  renderedContent : String

/-- Lines 36–53 of `scrape_user_chords.py`: navigate inside `try/except`
(warning on error), wait for the selector and the settle delay inside a second
`try/except` (warning on error), then read the page content.  Returns the
content handed to link extraction and the warnings printed. -/
def fetchPhase (e : BrowserEnv) : String × List String :=
  let w1 := match e.navOutcome with
    | .ok _ => []
    | .error m => ["Warning: Navigation timeout or error: " ++ m,
                   "Attempting to continue with current page state..."]
  let w2 := match e.waitOutcome with
    | .ok _ => []
    | .error m => ["Warning: Timeout waiting for page content: " ++ m]
  (e.renderedContent, w1 ++ w2)

/-! ## The orchestrator (`process_user_chords.py`) -/

/-- Outcome of a stage call that either returns or raises an `Exception`. -/
inductive StageOutcome where
  | ok
  | exn
deriving DecidableEq, Repr

/-- Modelled from the spec: the outcome interface of `fix_unicode_in_file`
(`unicode_fix.py` is not under src/) — normal return, a `SystemExit` carrying
a code, or another exception; §4.2 gives its contract as "exits process with
non-zero status on unrecoverable decode failure", so the code is an integer. -/
inductive FixOutcome where
  | ok
  | sysExit (code : Int)
  | exn
deriving DecidableEq, Repr

/-- Outcome of `merge_pdfs_from_list` as consumed by the orchestrator:
an exception, or the `(success, total_pages, processed_files)` triple. -/
inductive MergeOutcome where
  | exn
  | ret (success : Bool) (totalPages : Nat) (processed : List String)
deriving DecidableEq, Repr

/-- The stage outcomes and file-system observations one `main()` run makes,
in the order the orchestrator consumes them. -/
structure OrchEnv where
  scrape : StageOutcome
  txtExists : Bool
  fix : FixOutcome
  render : StageOutcome
  globPdfsNonempty : Bool
  foundPdfs : List String
  merge : MergeOutcome
deriving DecidableEq, Repr

/-- `main()` from the render step on (`process_user_chords.py` lines 77–125). -/
def afterFixExit (e : OrchEnv) : Int :=
  match e.render with
  | .exn => 1
  | .ok =>
    if !e.globPdfsNonempty then 1
    else if e.foundPdfs = [] then 1
    else match e.merge with
    | .exn => 1
    | .ret success _ _ => if !success then 1 else 0

/-- The process exit code of `main()` (`process_user_chords.py` lines 43–125):
0 when it runs to the end, the argument of the `sys.exit` call otherwise.
A non-zero `SystemExit` code from the normalizer is re-raised as is; a zero
code is swallowed and the pipeline continues. -/
def mainExit (e : OrchEnv) : Int :=
  match e.scrape with
  | .exn => 1
  | .ok =>
    if !e.txtExists then 1
    else match e.fix with
    | .exn => 1
    | .sysExit c => if c ≠ 0 then c else afterFixExit e
    | .ok => afterFixExit e

/-- Every stage of the pipeline completed successfully (the normalizer counts
as successful also when it exits with status 0). -/
def StagesOk (e : OrchEnv) : Prop :=
  e.scrape = .ok ∧ e.txtExists = true ∧ (e.fix = .ok ∨ e.fix = .sysExit 0) ∧
  e.render = .ok ∧ e.globPdfsNonempty = true ∧ e.foundPdfs ≠ [] ∧
  ∃ p f, e.merge = .ret true p f

/-! ## The merger, modelled from the spec -/

/-- Modelled from the spec: `merge_pdfs_from_list` (`merge_pdfs.py` is not
under src/).  Per §4.4: each input is opened in listed order; a corrupt or
unreadable input (`none` page count) is skipped with a logged warning; the
pages of readable inputs are appended and counted; `success` is true iff at
least one file was merged; `total_pages` and `processed_files` reflect only
the files actually incorporated.  An input is a pair of the file path and its
page count, `none` standing for a corrupt or unreadable file. -/
def mergeStep (acc : Nat × List String) (inp : String × Option Nat) : Nat × List String :=
  match inp.2 with
  | none => acc
  | some p => (acc.1 + p, acc.2 ++ [inp.1])

/-- Modelled from the spec: the `(success, total_pages, processed_files)`
result of `merge_pdfs_from_list`, folding `mergeStep` over the inputs in
listed order (§4.4). -/
def merge_pdfs_from_list (inputs : List (String × Option Nat)) : Bool × Nat × List String :=
  let acc := inputs.foldl mergeStep (0, [])
  (!acc.2.isEmpty, acc.1, acc.2)

/-- The readable inputs of a merge call. -/
def readableInputs (inputs : List (String × Option Nat)) : List (String × Nat) :=
  inputs.filterMap (fun inp => inp.2.map (fun p => (inp.1, p)))

/-! ## File-system paths (`process_user_chords.py` lines 37–41,
`scrape_user_chords.py` line 87) -/

/-- The path the harvester writes the manifest to: `Path(f"{user_id}.txt")`,
a relative path, resolved against the process working directory. -/
def scrapeManifestPath (cwd : List String) (userId : String) : List String :=
  cwd ++ [userId ++ ".txt"]

/-- The manifest path the orchestrator checks and passes on:
`script_dir / f"{user_id}.txt"`, resolved against the script's directory. -/
def orchTxtFile (scriptDir : List String) (userId : String) : List String :=
  scriptDir ++ [userId ++ ".txt"]

/-- The per-user artifact directory: `script_dir / "pdfs" / user_id`. -/
def orchPdfDir (scriptDir : List String) (userId : String) : List String :=
  scriptDir ++ ["pdfs", userId]

/-- The merged output: `script_dir / "pdfs" / f"{user_id}_merged.pdf"`. -/
def orchMergedPdf (scriptDir : List String) (userId : String) : List String :=
  scriptDir ++ ["pdfs", userId ++ "_merged.pdf"]

/-! ## Model validation on concrete inputs

These examples check the embedding against hand-evaluated runs of the Python
functions. -/

example : canonicalize "/chord/123#top" = some "https://zh-hk.guitarians.com/chord/123" := by
  decide

example : canonicalize "https://zh-hk.guitarians.com/chord/1?x=2" =
    some "https://zh-hk.guitarians.com/chord/1?x=2" := by decide

example : canonicalize "" = some "https://zh-hk.guitarians.com" := by decide

example : canonicalize "chord/9" = some "https://zh-hk.guitarians.com/chord/9" := by decide

example : canonicalize "/chord/a/../b" = some "https://zh-hk.guitarians.com/chord/b" := by decide

example : canonicalize "//other.com/chord/5" = some "https://other.com/chord/5" := by decide

example : canonicalize " /chord/x" = some "https://zh-hk.guitarians.com/chord/x" := by decide

example : canonicalize "/chord/a;b" = some "https://zh-hk.guitarians.com/chord/a" := by decide

example : canonicalize "ws:rel/chord/a;b" = some "ws://rel/chord/a;b" := by decide

example : scrapeLinks ["/chord/2#f", "/other/9", "/chord/1?x=2", "/chord/2"] =
    some ["https://zh-hk.guitarians.com/chord/2", "https://zh-hk.guitarians.com/chord/1?x=2",
          "https://zh-hk.guitarians.com/chord/2"] := by decide

example : manifestContent ["B", "A", "A", "C"] = "A\nB\nC" := by decide

/-! ## Order lemmas for the Python string comparison -/

theorem char_toNat_inj {a b : Char} (h : a.toNat = b.toNat) : a = b :=
  Char.eq_of_val_eq (UInt32.eq_of_toBitVec_eq (BitVec.eq_of_toNat_eq h))

theorem lexLe_refl (a : List Char) : lexLe a a = true := by
  induction a with
  | nil => rfl
  | cons c cs ih => simp [lexLe, ih]

theorem lexLe_total (a b : List Char) : lexLe a b = true ∨ lexLe b a = true := by
  induction a generalizing b with
  | nil => left; rfl
  | cons c cs ih =>
    cases b with
    | nil => right; rfl
    | cons d ds =>
      rcases Nat.lt_trichotomy c.toNat d.toNat with h | h | h
      · left; simp [lexLe, h]
      · have := ih ds
        rcases this with h2 | h2
        · left; simp [lexLe, h, h2]
        · right; simp [lexLe, h, h2]
      · right; simp [lexLe, h]

theorem lexLe_trans {a b c : List Char} (h1 : lexLe a b = true) (h2 : lexLe b c = true) :
    lexLe a c = true := by
  induction a generalizing b c with
  | nil => rfl
  | cons x xs ih =>
    cases b with
    | nil => simp [lexLe] at h1
    | cons y ys =>
      cases c with
      | nil => simp [lexLe] at h2
      | cons z zs =>
        rcases Nat.lt_trichotomy x.toNat y.toNat with hxy | hxy | hxy
        · rcases Nat.lt_trichotomy y.toNat z.toNat with hyz | hyz | hyz
          · simp [lexLe, Nat.lt_trans hxy hyz]
          · simp [lexLe, hyz ▸ hxy]
          · simp [lexLe, Nat.lt_asymm hyz, hyz] at h2
        · rcases Nat.lt_trichotomy y.toNat z.toNat with hyz | hyz | hyz
          · simp [lexLe, hxy ▸ hyz]
          · simp only [lexLe, hxy, hyz] at h1 h2 ⊢
            simp only [Nat.lt_irrefl, if_false, if_neg] at h1 h2 ⊢
            exact ih h1 h2
          · simp [lexLe, Nat.lt_asymm hyz, hyz] at h2
        · simp [lexLe, Nat.lt_asymm hxy, hxy] at h1

theorem lexLe_antisymm {a b : List Char} (h1 : lexLe a b = true) (h2 : lexLe b a = true) :
    a = b := by
  induction a generalizing b with
  | nil =>
    cases b with
    | nil => rfl
    | cons d ds => simp [lexLe] at h2
  | cons c cs ih =>
    cases b with
    | nil => simp [lexLe] at h1
    | cons d ds =>
      rcases Nat.lt_trichotomy c.toNat d.toNat with h | h | h
      · simp [lexLe, Nat.lt_asymm h, h] at h2
      · simp only [lexLe, h, Nat.lt_irrefl, if_false, if_neg] at h1 h2
        rw [char_toNat_inj h, ih h1 h2]
      · simp [lexLe, Nat.lt_asymm h, h] at h1

theorem lexLt_le {a b : List Char} (h : lexLt a b = true) : lexLe a b = true := by
  induction a generalizing b with
  | nil => rfl
  | cons c cs ih =>
    cases b with
    | nil => simp [lexLt] at h
    | cons d ds =>
      rcases Nat.lt_trichotomy c.toNat d.toNat with hcd | hcd | hcd
      · simp [lexLe, hcd]
      · simp only [lexLt, hcd, Nat.lt_irrefl, if_false, if_neg] at h
        simp only [lexLe, hcd, Nat.lt_irrefl, if_false, if_neg]
        exact ih h
      · simp [lexLt, Nat.lt_asymm hcd, hcd] at h

theorem lexLt_not_le {a b : List Char} (h : lexLt a b = true) : lexLe b a = false := by
  induction a generalizing b with
  | nil =>
    cases b with
    | nil => simp [lexLt] at h
    | cons d ds => rfl
  | cons c cs ih =>
    cases b with
    | nil => simp [lexLt] at h
    | cons d ds =>
      rcases Nat.lt_trichotomy c.toNat d.toNat with hcd | hcd | hcd
      · simp [lexLe, Nat.lt_asymm hcd, hcd]
      · simp only [lexLt, hcd, Nat.lt_irrefl, if_false, if_neg] at h
        simp only [lexLe, hcd, Nat.lt_irrefl, if_false, if_neg]
        exact ih h
      · simp [lexLt, Nat.lt_asymm hcd, hcd] at h

theorem lexLt_trans {a b c : List Char} (h1 : lexLt a b = true) (h2 : lexLt b c = true) :
    lexLt a c = true := by
  induction a generalizing b c with
  | nil =>
    cases c with
    | nil =>
      cases b with
      | nil => simp [lexLt] at h1
      | cons y ys => simp [lexLt] at h2
    | cons z zs => rfl
  | cons x xs ih =>
    cases b with
    | nil => simp [lexLt] at h1
    | cons y ys =>
      cases c with
      | nil => simp [lexLt] at h2
      | cons z zs =>
        rcases Nat.lt_trichotomy x.toNat y.toNat with hxy | hxy | hxy
        · rcases Nat.lt_trichotomy y.toNat z.toNat with hyz | hyz | hyz
          · simp [lexLt, Nat.lt_trans hxy hyz]
          · simp [lexLt, hyz ▸ hxy]
          · simp [lexLt, Nat.lt_asymm hyz, hyz] at h2
        · rcases Nat.lt_trichotomy y.toNat z.toNat with hyz | hyz | hyz
          · simp [lexLt, hxy ▸ hyz]
          · simp only [lexLt, hxy, hyz, Nat.lt_irrefl, if_false, if_neg] at h1 h2 ⊢
            exact ih h1 h2
          · simp [lexLt, Nat.lt_asymm hyz, hyz] at h2
        · simp [lexLt, Nat.lt_asymm hxy, hxy] at h1

theorem lexLt_irrefl (a : List Char) : lexLt a a = false := by
  induction a with
  | nil => rfl
  | cons c cs ih => simp [lexLt, ih]

theorem lexLt_ne {a b : List Char} (h : lexLt a b = true) : a ≠ b := by
  intro he
  subst he
  rw [lexLt_irrefl] at h
  exact Bool.false_ne_true h

theorem strLt_ne {s t : String} (h : strLt s t = true) : s ≠ t := by
  intro he
  exact lexLt_ne h (congrArg String.data he)

theorem string_eq_of_data_eq {s t : String} (h : s.data = t.data) : s = t := by
  cases s
  cases t
  exact congrArg String.mk h

theorem strLe_total (s t : String) : strLe s t = true ∨ strLe t s = true :=
  lexLe_total s.data t.data

theorem strLe_trans {s t u : String} (h1 : strLe s t = true) (h2 : strLe t u = true) :
    strLe s u = true := lexLe_trans h1 h2

theorem strLe_antisymm {s t : String} (h1 : strLe s t = true) (h2 : strLe t s = true) :
    s = t := string_eq_of_data_eq (lexLe_antisymm h1 h2)

instance : IsAntisymm String (fun a b => strLe a b = true) :=
  ⟨fun _ _ h1 h2 => strLe_antisymm h1 h2⟩

/-! ## Correctness of the sort used for the manifest -/

theorem insertSorted_perm (s : String) (l : List String) :
    List.Perm (insertSorted s l) (s :: l) := by
  induction l with
  | nil => exact List.Perm.refl _
  | cons t ts ih =>
    by_cases h : strLe s t = true
    · simp only [insertSorted, if_pos h]
      exact List.Perm.refl _
    · simp only [insertSorted, if_neg h]
      exact List.Perm.trans (List.Perm.cons t ih) (List.Perm.swap s t ts)

theorem sortLinks_perm (l : List String) : List.Perm (sortLinks l) l := by
  induction l with
  | nil => exact List.Perm.refl _
  | cons s ss ih =>
    exact List.Perm.trans (insertSorted_perm s (sortLinks ss)) (List.Perm.cons s ih)

theorem insertSorted_sorted (s : String) {l : List String}
    (h : l.Pairwise (fun a b => strLe a b = true)) :
    (insertSorted s l).Pairwise (fun a b => strLe a b = true) := by
  induction l with
  | nil => simp [insertSorted]
  | cons t ts ih =>
    rcases List.pairwise_cons.mp h with ⟨ht, hts⟩
    by_cases hst : strLe s t = true
    · simp only [insertSorted, if_pos hst]
      refine List.pairwise_cons.mpr ⟨?_, h⟩
      intro x hx
      rcases List.mem_cons.mp hx with rfl | hx
      · exact hst
      · exact strLe_trans hst (ht x hx)
    · simp only [insertSorted, if_neg hst]
      refine List.pairwise_cons.mpr ⟨?_, ih hts⟩
      intro x hx
      have hx2 : x ∈ s :: ts := (insertSorted_perm s ts).mem_iff.mp hx
      rcases List.mem_cons.mp hx2 with rfl | hx2
      · rcases strLe_total t x with h2 | h2
        · exact h2
        · exact absurd h2 (by simpa using hst)
      · exact ht x hx2

theorem sortLinks_sorted (l : List String) :
    (sortLinks l).Pairwise (fun a b => strLe a b = true) := by
  induction l with
  | nil => simp [sortLinks]
  | cons s ss ih => exact insertSorted_sorted s ih

theorem sortLinks_eq_of_perm {l₁ l₂ : List String} (h : List.Perm l₁ l₂) :
    sortLinks l₁ = sortLinks l₂ :=
  List.eq_of_perm_of_sorted
    (List.Perm.trans (sortLinks_perm l₁) (List.Perm.trans h (sortLinks_perm l₂).symm))
    (sortLinks_sorted l₁) (sortLinks_sorted l₂)

theorem sortedDedup_sorted (l : List String) :
    (sortedDedup l).Pairwise (fun a b => strLe a b = true) := sortLinks_sorted l.dedup

theorem sortedDedup_nodup (l : List String) : (sortedDedup l).Nodup :=
  (sortLinks_perm l.dedup).nodup_iff.mpr (List.nodup_dedup l)

theorem sortedDedup_mem (l : List String) (s : String) : s ∈ sortedDedup l ↔ s ∈ l := by
  rw [sortedDedup, (sortLinks_perm l.dedup).mem_iff]
  exact List.mem_dedup

theorem sortedDedup_congr {l₁ l₂ : List String} (h : ∀ s, s ∈ l₁ ↔ s ∈ l₂) :
    sortedDedup l₁ = sortedDedup l₂ := by
  apply sortLinks_eq_of_perm
  apply (List.perm_ext_iff_of_nodup (List.nodup_dedup l₁) (List.nodup_dedup l₂)).mpr
  intro a
  rw [List.mem_dedup, List.mem_dedup]
  exact h a

/-! ## Characterization of the harvester's link collection -/

theorem scrapeLinks_none_iff (hrefs : List String) :
    scrapeLinks hrefs = none ↔
      ∃ h ∈ hrefs, isChordHref h = true ∧ canonicalize h = none := by
  induction hrefs with
  | nil => simp [scrapeLinks]
  | cons h t ih =>
    by_cases hc : isChordHref h = true
    · cases hcan : canonicalize h with
      | none =>
        simp only [scrapeLinks, hc, if_pos, hcan]
        constructor
        · intro _
          exact ⟨h, List.mem_cons_self h t, hc, hcan⟩
        · intro _
          trivial
      | some c =>
        simp only [scrapeLinks, hc, if_pos, hcan, Option.map_eq_none']
        rw [ih]
        constructor
        · rintro ⟨x, hx, hcx, hnone⟩
          exact ⟨x, List.mem_cons_of_mem h hx, hcx, hnone⟩
        · rintro ⟨x, hx, hcx, hnone⟩
          rcases List.mem_cons.mp hx with rfl | hx
          · rw [hcan] at hnone
            cases hnone
          · exact ⟨x, hx, hcx, hnone⟩
    · simp only [scrapeLinks, hc, if_neg, Bool.not_eq_true]
      rw [ih]
      constructor
      · rintro ⟨x, hx, hcx, hnone⟩
        exact ⟨x, List.mem_cons_of_mem h hx, hcx, hnone⟩
      · rintro ⟨x, hx, hcx, hnone⟩
        rcases List.mem_cons.mp hx with rfl | hx
        · exact absurd hcx hc
        · exact ⟨x, hx, hcx, hnone⟩

theorem scrapeLinks_mem {hrefs : List String} {ls : List String}
    (hls : scrapeLinks hrefs = some ls) (x : String) :
    x ∈ ls ↔ ∃ hr ∈ hrefs, isChordHref hr = true ∧ canonicalize hr = some x := by
  induction hrefs generalizing ls with
  | nil =>
    simp only [scrapeLinks, Option.some.injEq] at hls
    subst hls
    simp
  | cons h t ih =>
    by_cases hc : isChordHref h = true
    · cases hcan : canonicalize h with
      | none =>
        rw [scrapeLinks, if_pos hc, hcan] at hls
        cases hls
      | some c =>
        rw [scrapeLinks, if_pos hc, hcan] at hls
        simp only [Option.map_eq_some'] at hls
        rcases hls with ⟨ts, hst, rfl⟩
        · constructor
          · intro hx
            rcases List.mem_cons.mp hx with rfl | hx
            · exact ⟨h, List.mem_cons_self h t, hc, hcan⟩
            · rcases (ih hst).mp hx with ⟨hr, h1, h2, h3⟩
              exact ⟨hr, List.mem_cons_of_mem h h1, h2, h3⟩
          · rintro ⟨hr, hmem, hchord, hcx⟩
            rcases List.mem_cons.mp hmem with rfl | hmem
            · rw [hcan] at hcx
              exact List.mem_cons.mpr (Or.inl (Option.some.inj hcx).symm)
            · exact List.mem_cons.mpr (Or.inr ((ih hst).mpr ⟨hr, hmem, hchord, hcx⟩))
    · rw [scrapeLinks, if_neg hc] at hls
      rw [ih hls]
      constructor
      · rintro ⟨hr, h1, h2, h3⟩
        exact ⟨hr, List.mem_cons_of_mem h h1, h2, h3⟩
      · rintro ⟨hr, hmem, hchord, hcx⟩
        rcases List.mem_cons.mp hmem with rfl | hmem
        · exact absurd hchord hc
        · exact ⟨hr, hmem, hchord, hcx⟩

/-! ## Claim C1 -/

/-- Claim C1: the manifest written by `scrape_user_chords` contains exactly the
deduplicated canonical URLs, one per line, in lexicographically sorted order
with no repeats; in particular for discovered canonical links `[B, A, A, C]`
(with `A < B < C` in Python's string order) the file content is exactly
`A\nB\nC`. -/
theorem c1_manifest_dedup_sorted :
    (∀ links : List String,
        manifestContent links = joinLines (sortedDedup links) ∧
        (sortedDedup links).Pairwise (fun a b => strLe a b = true) ∧
        (sortedDedup links).Nodup ∧
        (∀ s, s ∈ sortedDedup links ↔ s ∈ links)) ∧
    (∀ A B C : String, strLt A B = true → strLt B C = true →
        manifestContent [B, A, A, C] = A ++ "\n" ++ B ++ "\n" ++ C) := by
  constructor
  · intro links
    exact ⟨rfl, sortedDedup_sorted links, sortedDedup_nodup links, sortedDedup_mem links⟩
  · intro A B C hab hbc
    have hac : strLt A C = true := lexLt_trans hab hbc
    have hABne : A ≠ B := strLt_ne hab
    have hBCne : B ≠ C := strLt_ne hbc
    have hACne : A ≠ C := strLt_ne hac
    have hBmem : (B : String) ∉ ([A, A, C] : List String) := by
      intro hm
      rcases List.mem_cons.mp hm with h | hm
      · exact hABne h.symm
      rcases List.mem_cons.mp hm with h | hm
      · exact hABne h.symm
      rcases List.mem_cons.mp hm with h | hm
      · exact hBCne h
      · cases hm
    have hAmem : (A : String) ∉ ([C] : List String) := by
      intro hm
      rcases List.mem_cons.mp hm with h | hm
      · exact hACne h
      · cases hm
    have hd : ([B, A, A, C] : List String).dedup = [B, A, C] := by
      rw [List.dedup_cons_of_not_mem hBmem,
          List.dedup_cons_of_mem (List.mem_cons_self A [C]),
          List.dedup_cons_of_not_mem hAmem,
          List.dedup_cons_of_not_mem (List.not_mem_nil C), List.dedup_nil]
    have hle_BA : strLe B A = false := lexLt_not_le hab
    have hle_AC : strLe A C = true := lexLt_le hac
    have hle_BC : strLe B C = true := lexLt_le hbc
    rw [manifestContent, sortedDedup, hd]
    simp only [sortLinks, insertSorted, hle_AC, hle_BA, hle_BC, if_true, if_false,
      Bool.false_eq_true, if_neg, if_pos, joinLines]
    simp [String.append_assoc]

/-- Witness for C1 at a concrete instance. -/
theorem c1_witness :
    manifestContent ["B", "A", "A", "C"] = "A" ++ "\n" ++ "B" ++ "\n" ++ "C" :=
  c1_manifest_dedup_sorted.2 "A" "B" "C" (by decide) (by decide)

/-! ## Claim C9 -/

/-- Claim C9: harvesting is deterministic in its post-fetch processing — the
manifest content depends only on the set of hrefs found in the rendered page
(in particular two runs with identical rendered content, hence identical href
lists, produce byte-identical manifests, whatever order the hrefs appear in
and however often they repeat). -/
theorem c9_post_fetch_deterministic (hrefs₁ hrefs₂ : List String)
    (h : ∀ s, s ∈ hrefs₁ ↔ s ∈ hrefs₂) :
    scrapeManifest hrefs₁ = scrapeManifest hrefs₂ := by
  unfold scrapeManifest
  cases e1 : scrapeLinks hrefs₁ with
  | none =>
    have h2 : scrapeLinks hrefs₂ = none := by
      rcases (scrapeLinks_none_iff hrefs₁).mp e1 with ⟨x, hx, hcx, hnone⟩
      exact (scrapeLinks_none_iff hrefs₂).mpr ⟨x, (h x).mp hx, hcx, hnone⟩
    rw [h2]
  | some ls1 =>
    cases e2 : scrapeLinks hrefs₂ with
    | none =>
      rcases (scrapeLinks_none_iff hrefs₂).mp e2 with ⟨x, hx, hcx, hnone⟩
      have : scrapeLinks hrefs₁ = none :=
        (scrapeLinks_none_iff hrefs₁).mpr ⟨x, (h x).mpr hx, hcx, hnone⟩
      rw [this] at e1
      cases e1
    | some ls2 =>
      simp only [Option.map_some', Option.some.injEq]
      unfold manifestContent
      congr 1
      apply sortedDedup_congr
      intro s
      rw [scrapeLinks_mem e1 s, scrapeLinks_mem e2 s]
      constructor
      · rintro ⟨hr, h1, h2, h3⟩
        exact ⟨hr, (h hr).mp h1, h2, h3⟩
      · rintro ⟨hr, h1, h2, h3⟩
        exact ⟨hr, (h hr).mpr h1, h2, h3⟩

/-- Witness for C9: duplicated discovery order changes nothing. -/
theorem c9_witness :
    scrapeManifest ["/chord/7", "/chord/7", "/other"] = scrapeManifest ["/other", "/chord/7"] :=
  c9_post_fetch_deterministic _ _ (by intro s; constructor <;> (intro h; simp at h; simp [h]) <;> tauto)

/-! ## Claim C10 -/

/-- Claim C10: when zero chord links are discovered, `scrape_user_chords`
performs no file-system write at all — a pre-existing manifest file at the
output path is left byte-for-byte unchanged (and absence stays absence),
since the write is only reached when the sorted link list is non-empty. -/
theorem c10_no_write_when_empty (hrefs : List String) (pre : Option String)
    (h : scrapeLinks hrefs = some []) :
    (scrapeRun hrefs pre).fs = pre ∧ (scrapeRun hrefs pre).raised = false ∧
      (scrapeRun hrefs pre).warnedEmpty = true := by
  have : sortedDedup ([] : List String) = [] := rfl
  simp [scrapeRun, h, this]

/-- Witness for C10: a stale manifest survives an empty harvest untouched. -/
theorem c10_witness :
    (scrapeRun ["/other/9"] (some "stale content")).fs = some "stale content" :=
  (c10_no_write_when_empty ["/other/9"] (some "stale content") (by decide)).1

/-! ## Claim C4 -/

/-- Claim C4: with an empty set of discovered chord links, `scrape_user_chords`
warns and returns normally without creating the manifest file and without
raising; the orchestrator then finds the manifest missing at its existence
check and terminates the run with exit code 1 (non-zero), whatever the
outcomes of the later stages would have been. -/
theorem c4_empty_harvest_fails_run (hrefs : List String)
    (h : scrapeLinks hrefs = some []) (fix : FixOutcome) (render : StageOutcome)
    (glob : Bool) (found : List String) (merge : MergeOutcome) :
    (scrapeRun hrefs none).raised = false ∧
    (scrapeRun hrefs none).warnedEmpty = true ∧
    (scrapeRun hrefs none).fs = none ∧
    mainExit ⟨.ok, (scrapeRun hrefs none).fs.isSome, fix, render, glob, found, merge⟩ = 1 := by
  have hrun : scrapeRun hrefs none = ⟨false, none, true⟩ := by
    have : sortedDedup ([] : List String) = [] := rfl
    simp [scrapeRun, h, this]
  rw [hrun]
  refine ⟨rfl, rfl, rfl, ?_⟩
  simp [mainExit]

/-- Witness for C4 at a concrete page with no chord links. -/
theorem c4_witness :
    mainExit ⟨.ok, (scrapeRun ["/other/9"] none).fs.isSome, .ok, .ok, true, ["x.pdf"],
      .ret true 3 ["x.pdf"]⟩ = 1 :=
  (c4_empty_harvest_fails_run ["/other/9"] (by decide) .ok .ok true ["x.pdf"]
    (.ret true 3 ["x.pdf"])).2.2.2

/-! ## Claim C2 -/

theorem afterFixExit_eq_zero (e : OrchEnv) :
    afterFixExit e = 0 ↔
      e.render = .ok ∧ e.globPdfsNonempty = true ∧ e.foundPdfs ≠ [] ∧
        ∃ p f, e.merge = .ret true p f := by
  constructor
  · intro h
    cases hr : e.render with
    | exn => simp [afterFixExit, hr] at h
    | ok =>
      cases hg : e.globPdfsNonempty with
      | false => simp [afterFixExit, hr, hg] at h
      | true =>
        by_cases hfd : e.foundPdfs = []
        · simp [afterFixExit, hr, hg, hfd] at h
        · cases hm : e.merge with
          | exn => simp [afterFixExit, hr, hg, hfd, hm] at h
          | ret success p f =>
            cases success with
            | false => simp [afterFixExit, hr, hg, hfd, hm] at h
            | true => exact ⟨rfl, rfl, hfd, p, f, rfl⟩
  · rintro ⟨hr, hg, hfd, p, f, hm⟩
    simp [afterFixExit, hr, hg, hfd, hm]

theorem afterFixExit_ne_zero (e : OrchEnv) (h : afterFixExit e ≠ 0) : afterFixExit e = 1 := by
  cases hr : e.render with
  | exn => simp [afterFixExit, hr]
  | ok =>
    cases hg : e.globPdfsNonempty with
    | false => simp [afterFixExit, hr, hg]
    | true =>
      by_cases hfd : e.foundPdfs = []
      · simp [afterFixExit, hr, hg, hfd]
      · cases hm : e.merge with
        | exn => simp [afterFixExit, hr, hg, hfd, hm]
        | ret success p f =>
          cases success with
          | false => simp [afterFixExit, hr, hg, hfd, hm]
          | true =>
            exfalso
            exact h (by simp [afterFixExit, hr, hg, hfd, hm])

/-- Claim C2: the orchestrator's exit code is 0 iff every stage completes
successfully; when the run reaches the normalizer and it terminates via a
non-zero `SystemExit`, that code is propagated; every other failure exits
with 1 (so the exit code is non-zero on any stage failure, including missing
manifest, zero rendered PDFs, and `success=false` from merge). -/
theorem c2_exit_code (e : OrchEnv) :
    (mainExit e = 0 ↔ StagesOk e) ∧
    (e.scrape = .ok → e.txtExists = true → ∀ c : Int, e.fix = .sysExit c → c ≠ 0 →
      mainExit e = c) ∧
    ((∀ c : Int, c ≠ 0 → ¬(e.scrape = .ok ∧ e.txtExists = true ∧ e.fix = .sysExit c)) →
      ¬ StagesOk e → mainExit e = 1) := by
  refine ⟨⟨?_, ?_⟩, ?_, ?_⟩
  · -- exit 0 implies all stages ok
    intro h0
    cases hs : e.scrape with
    | exn => simp [mainExit, hs] at h0
    | ok =>
      cases ht : e.txtExists with
      | false => simp [mainExit, hs, ht] at h0
      | true =>
        cases hf : e.fix with
        | exn => simp [mainExit, hs, ht, hf] at h0
        | ok =>
          rw [mainExit, hs, ht] at h0
          simp only [hf, Bool.not_true, Bool.false_eq_true, if_false] at h0
          rcases (afterFixExit_eq_zero e).mp h0 with ⟨hr, hg, hfd, p, f, hm⟩
          exact ⟨hs, ht, Or.inl hf, hr, hg, hfd, p, f, hm⟩
        | sysExit c =>
          rw [mainExit, hs, ht] at h0
          simp only [hf, Bool.not_true, Bool.false_eq_true, if_false] at h0
          by_cases hc : c = 0
          · subst hc
            simp only [ne_eq, not_true_eq_false, if_neg, if_false] at h0
            rcases (afterFixExit_eq_zero e).mp h0 with ⟨hr, hg, hfd, p, f, hm⟩
            exact ⟨hs, ht, Or.inr hf, hr, hg, hfd, p, f, hm⟩
          · rw [if_pos hc] at h0
            exact absurd h0 hc
  · -- all stages ok implies exit 0
    rintro ⟨hs, ht, hf, hr, hg, hfd, p, f, hm⟩
    have hafter : afterFixExit e = 0 := (afterFixExit_eq_zero e).mpr ⟨hr, hg, hfd, p, f, hm⟩
    rcases hf with hf | hf
    · rw [mainExit, hs, ht]
      simp only [hf, Bool.not_true, Bool.false_eq_true, if_false]
      exact hafter
    · rw [mainExit, hs, ht]
      simp only [hf, Bool.not_true, Bool.false_eq_true, if_false]
      simp only [ne_eq, not_true_eq_false, if_neg, if_false]
      exact hafter
  · -- a non-zero SystemExit of the normalizer is propagated
    intro hs ht c hf hc
    rw [mainExit, hs, ht]
    simp only [hf, Bool.not_true, Bool.false_eq_true, if_false, if_pos hc]
  · -- any other failure exits with 1
    intro hguard hnot
    cases hs : e.scrape with
    | exn => simp [mainExit, hs]
    | ok =>
      cases ht : e.txtExists with
      | false => simp [mainExit, hs, ht]
      | true =>
        cases hf : e.fix with
        | exn => simp [mainExit, hs, ht, hf]
        | ok =>
          rw [mainExit, hs, ht]
          simp only [hf, Bool.not_true, Bool.false_eq_true, if_false]
          apply afterFixExit_ne_zero
          intro h0
          rcases (afterFixExit_eq_zero e).mp h0 with ⟨hr, hg, hfd, p, f, hm⟩
          exact hnot ⟨hs, ht, Or.inl hf, hr, hg, hfd, p, f, hm⟩
        | sysExit c =>
          by_cases hc : c = 0
          · subst hc
            rw [mainExit, hs, ht]
            simp only [hf, Bool.not_true, Bool.false_eq_true, if_false]
            simp only [ne_eq, not_true_eq_false, if_neg, if_false]
            apply afterFixExit_ne_zero
            intro h0
            rcases (afterFixExit_eq_zero e).mp h0 with ⟨hr, hg, hfd, p, f, hm⟩
            exact hnot ⟨hs, ht, Or.inr hf, hr, hg, hfd, p, f, hm⟩
          · exact absurd ⟨hs, ht, hf⟩ (hguard c hc)

/-- Witness for C2: a run whose normalizer exits with status 7 makes the
whole pipeline exit with 7, and a fully successful run exits with 0. -/
theorem c2_witness :
    mainExit ⟨.ok, true, .sysExit 7, .ok, true, ["a.pdf"], .ret true 4 ["a.pdf"]⟩ = 7 ∧
    mainExit ⟨.ok, true, .ok, .ok, true, ["a.pdf"], .ret true 4 ["a.pdf"]⟩ = 0 := by
  constructor
  · exact (c2_exit_code _).2.1 rfl rfl 7 rfl (by decide)
  · exact (c2_exit_code _).1.mpr ⟨rfl, rfl, Or.inl rfl, rfl, rfl, by decide, 4, ["a.pdf"], rfl⟩

/-! ## Claim C6 -/

/-- Claim C6: a navigation error or timeout during the harvester's page load is
soft — the exception is caught and logged as a warning and the harvester
proceeds with whatever DOM state is available (the returned content is always
the current rendered content, for every outcome of the navigate call); the
selector-wait plus settle delay is likewise soft-failing. -/
theorem c6_navigation_soft (nav wait : Except String Unit) (content : String) :
    (fetchPhase ⟨nav, wait, content⟩).1 = content ∧
    (∀ m, nav = .error m →
      ("Warning: Navigation timeout or error: " ++ m) ∈ (fetchPhase ⟨nav, wait, content⟩).2) ∧
    (∀ m, wait = .error m →
      ("Warning: Timeout waiting for page content: " ++ m) ∈ (fetchPhase ⟨nav, wait, content⟩).2) ∧
    (nav = .ok () → wait = .ok () → (fetchPhase ⟨nav, wait, content⟩).2 = []) := by
  refine ⟨rfl, ?_, ?_, ?_⟩
  · intro m hm
    simp [fetchPhase, hm]
  · intro m hm
    cases nav with
    | ok _ => simp [fetchPhase, hm]
    | error m2 => simp [fetchPhase, hm]
  · intro h1 h2
    simp [fetchPhase, h1, h2]

/-- Witness for C6: a failed navigation still hands the current DOM content to
link extraction and logs the warning. -/
theorem c6_witness :
    (fetchPhase ⟨.error "timeout", .ok (), "page html"⟩).1 = "page html" ∧
    ("Warning: Navigation timeout or error: " ++ "timeout") ∈
      (fetchPhase ⟨.error "timeout", .ok (), "page html"⟩).2 :=
  ⟨(c6_navigation_soft (.error "timeout") (.ok ()) "page html").1,
   (c6_navigation_soft (.error "timeout") (.ok ()) "page html").2.1 "timeout" rfl⟩

/-! ## Claim C7 -/

/-- Counterexample for C7 as stated: the manifest path the harvester writes is
resolved against the process working directory, while the path the
orchestrator checks is resolved against the script's own directory; for a run
whose working directory is not the script directory they are different
paths. -/
theorem c7_counterexample :
    scrapeManifestPath ["home", "runner"] "320385" ≠ orchTxtFile ["opt", "tools"] "320385" := by
  decide

/-- Claim C7 (amended): the orchestrator resolves the manifest, the artifact
directory and the merged output against the single root `script_dir` (the
latter two under its `pdfs` subdirectory), but the harvester writes the
manifest relative to the current working directory; the two manifest paths
coincide exactly when the working directory is the script directory. -/
theorem c7_amended_paths (cwd scriptDir : List String) (uid : String) :
    (scrapeManifestPath cwd uid = orchTxtFile scriptDir uid ↔ cwd = scriptDir) ∧
    (orchTxtFile scriptDir uid).take scriptDir.length = scriptDir ∧
    (orchPdfDir scriptDir uid).take (scriptDir.length + 1) = scriptDir ++ ["pdfs"] ∧
    (orchMergedPdf scriptDir uid).take (scriptDir.length + 1) = scriptDir ++ ["pdfs"] := by
  refine ⟨⟨fun h => List.append_cancel_right h, fun h => by rw [scrapeManifestPath, orchTxtFile, h]⟩, ?_, ?_, ?_⟩
  · simp [orchTxtFile, List.take_left]
  · simp [orchPdfDir, List.take_append]
  · simp [orchMergedPdf, List.take_append]

/-- Witness for C7 (amended): launched from the script directory, harvester and
orchestrator agree on the manifest path. -/
theorem c7_witness :
    scrapeManifestPath ["app"] "320385" = orchTxtFile ["app"] "320385" :=
  (c7_amended_paths ["app"] ["app"] "320385").1.mpr rfl

/-! ## Claim C8 -/

theorem mergeStep_foldl (inputs : List (String × Option Nat)) (n : Nat) (names : List String) :
    inputs.foldl mergeStep (n, names) =
      (n + ((readableInputs inputs).map (fun x => x.2)).sum,
       names ++ (readableInputs inputs).map (fun x => x.1)) := by
  induction inputs generalizing n names with
  | nil => simp [readableInputs]
  | cons i t ih =>
    cases hp : i.2 with
    | none =>
      simp only [List.foldl_cons, mergeStep, hp, readableInputs, List.filterMap_cons,
        Option.map_none']
      exact ih n names
    | some p =>
      simp only [List.foldl_cons, mergeStep, hp, readableInputs, List.filterMap_cons,
        Option.map_some']
      rw [ih]
      simp [readableInputs, Nat.add_assoc]

/-- Claim C8: for every input list with at least one readable file, merge
returns `success = true` with `total_pages` and `processed_files` reflecting
exactly the readable inputs (corrupt inputs are skipped, not fatal); in
particular with one corrupt file among three inputs the result is
`success = true`, the page total of the two valid files, and the two valid
paths in order. -/
theorem c8_merge_skips_corrupt :
    (∀ inputs : List (String × Option Nat),
        (∃ f p, (f, some p) ∈ inputs) →
        (merge_pdfs_from_list inputs).1 = true ∧
        (merge_pdfs_from_list inputs).2.1 = ((readableInputs inputs).map (fun x => x.2)).sum ∧
        (merge_pdfs_from_list inputs).2.2 = (readableInputs inputs).map (fun x => x.1)) ∧
    (∀ (a b c : String) (pa pc : Nat),
        merge_pdfs_from_list [(a, some pa), (b, none), (c, some pc)] =
          (true, pa + pc, [a, c])) := by
  constructor
  · intro inputs hex
    have hfold := mergeStep_foldl inputs 0 []
    have hread : readableInputs inputs ≠ [] := by
      rcases hex with ⟨f, p, hmem⟩
      intro hnil
      have : (f, p) ∈ readableInputs inputs := by
        simp only [readableInputs, List.mem_filterMap]
        exact ⟨(f, some p), hmem, rfl⟩
      rw [hnil] at this
      cases this
    refine ⟨?_, ?_, ?_⟩
    · simp only [merge_pdfs_from_list, hfold]
      simp only [List.nil_append, Bool.not_eq_true']
      rw [List.isEmpty_eq_false_iff_exists_mem]
      rcases List.exists_mem_of_ne_nil _ hread with ⟨x, hx⟩
      exact ⟨x.1, List.mem_map_of_mem (fun y => y.1) hx⟩
    · simp [merge_pdfs_from_list, hfold]
    · simp [merge_pdfs_from_list, hfold]
  · intro a b c pa pc
    simp [merge_pdfs_from_list, mergeStep, Nat.add_assoc]

/-- Witness for C8 with one corrupt file among three. -/
theorem c8_witness :
    (merge_pdfs_from_list [("a.pdf", some 2), ("b.pdf", none), ("c.pdf", some 1)]).1 = true ∧
    (merge_pdfs_from_list [("a.pdf", some 2), ("b.pdf", none), ("c.pdf", some 1)]).2.1 =
      ((readableInputs [("a.pdf", some 2), ("b.pdf", none), ("c.pdf", some 1)]).map
        (fun x => x.2)).sum ∧
    (merge_pdfs_from_list [("a.pdf", some 2), ("b.pdf", none), ("c.pdf", some 1)]).2.2 =
      (readableInputs [("a.pdf", some 2), ("b.pdf", none), ("c.pdf", some 1)]).map
        (fun x => x.1) :=
  c8_merge_skips_corrupt.1 [("a.pdf", some 2), ("b.pdf", none), ("c.pdf", some 1)]
    ⟨"a.pdf", 2, by simp⟩

/-! ## List helpers for the URL proofs -/

theorem takeWhile_app_all {p : Char → Bool} {a : List Char} (b : List Char)
    (h : a.all p = true) : (a ++ b).takeWhile p = a ++ b.takeWhile p := by
  induction a with
  | nil => simp
  | cons c cs ih =>
    rw [List.all_cons, Bool.and_eq_true] at h
    simp [List.takeWhile_cons, h.1, ih h.2]

theorem takeWhile_app_stop {p : Char → Bool} {a : List Char} (b : List Char)
    (h : a.all p = false) : (a ++ b).takeWhile p = a.takeWhile p := by
  induction a with
  | nil => simp at h
  | cons c cs ih =>
    cases hc : p c with
    | false => simp [List.takeWhile_cons, hc]
    | true =>
      rw [List.all_cons, hc, Bool.true_and] at h
      simp [List.takeWhile_cons, hc, ih h]

theorem dropWhile_app_all {p : Char → Bool} {a : List Char} (b : List Char)
    (h : a.all p = true) : (a ++ b).dropWhile p = b.dropWhile p := by
  induction a with
  | nil => simp
  | cons c cs ih =>
    rw [List.all_cons, Bool.and_eq_true] at h
    simp [List.dropWhile_cons, h.1, ih h.2]

theorem dropWhile_app_stop {p : Char → Bool} {a : List Char} (b : List Char)
    (h : a.all p = false) : (a ++ b).dropWhile p = a.dropWhile p ++ b := by
  induction a with
  | nil => simp at h
  | cons c cs ih =>
    cases hc : p c with
    | false => simp [List.dropWhile_cons, hc]
    | true =>
      rw [List.all_cons, hc, Bool.true_and] at h
      simp [List.dropWhile_cons, hc, ih h]

theorem takeWhile_stop_append {p : Char → Bool} {s : Char} (hs : p s = false)
    (x y : List Char) : (x ++ s :: y).takeWhile p = x.takeWhile p := by
  cases hx : x.all p with
  | true =>
    have hxx : x.takeWhile p = x :=
      List.takeWhile_eq_self_iff.mpr (fun a ha => List.all_eq_true.mp hx a ha)
    simp [takeWhile_app_all _ hx, List.takeWhile_cons, hs, hxx]
  | false => exact takeWhile_app_stop _ hx

theorem dropWhile_stop_append {p : Char → Bool} {s : Char} (hs : p s = false)
    (x y : List Char) : (x ++ s :: y).dropWhile p = x.dropWhile p ++ s :: y := by
  cases hx : x.all p with
  | true =>
    have hxx : x.dropWhile p = [] :=
      List.dropWhile_eq_nil_iff.mpr (fun a ha => List.all_eq_true.mp hx a ha)
    simp [dropWhile_app_all _ hx, List.dropWhile_cons, hs, hxx]
  | false => exact dropWhile_app_stop _ hx

theorem all_false_dropWhile_cons {p : Char → Bool} {a : List Char} (h : a.all p = false) :
    ∃ c r, a.dropWhile p = c :: r ∧ p c = false := by
  induction a with
  | nil => simp at h
  | cons c cs ih =>
    cases hc : p c with
    | false => exact ⟨c, cs, by simp [List.dropWhile_cons, hc], hc⟩
    | true =>
      rw [List.all_cons, hc, Bool.true_and] at h
      rcases ih h with ⟨d, r, hd, hp⟩
      exact ⟨d, r, by simp [List.dropWhile_cons, hc, hd], hp⟩

theorem sanitize_append (x y : List Char) : sanitize (x ++ y) = sanitize x ++ sanitize y :=
  List.filter_append _ _

theorem sanitize_hash_cons (b : List Char) : sanitize ('#' :: b) = '#' :: sanitize b := by
  simp [sanitize, unsafeUrlChars]

theorem sanitize_eq_self {l : List Char}
    (h : ∀ c ∈ l, (!unsafeUrlChars.contains c) = true) :
    sanitize l = l := List.filter_eq_self.mpr h

theorem mem_sanitize {l : List Char} {c : Char} (h : c ∈ sanitize l) :
    c ∈ l ∧ (!unsafeUrlChars.contains c) = true := by
  rw [sanitize, List.mem_filter] at h
  exact h

theorem sanitize_idem (l : List Char) : sanitize (sanitize l) = sanitize l :=
  sanitize_eq_self (fun _ hc => (mem_sanitize hc).2)

theorem lstripC0_cons {c : Char} {l : List Char} (h : isC0OrSpace c = false) :
    lstripC0 (c :: l) = c :: l := by
  rw [lstripC0, List.dropWhile_cons, if_neg (by rw [h]; exact Bool.false_ne_true)]

theorem lstripC0_hash (a b : List Char) :
    lstripC0 (a ++ '#' :: b) = lstripC0 a ++ '#' :: b :=
  dropWhile_stop_append (by decide) a b

/-! ## Char lemmas for `Char.toLower` -/

theorem toLower_eq (c : Char) :
    c.toLower = if 65 ≤ c.toNat ∧ c.toNat ≤ 90 then Char.ofNat (c.toNat + 32) else c := rfl

theorem char_ofNat_toNat {n : Nat} (h : n.isValidChar) : (Char.ofNat n).toNat = n := by
  simp only [Char.ofNat, dif_pos h]
  simp only [Char.ofNatAux, Char.toNat]
  rfl

theorem toLower_toNat (c : Char) :
    (c.toLower).toNat = if 65 ≤ c.toNat ∧ c.toNat ≤ 90 then c.toNat + 32 else c.toNat := by
  by_cases h : 65 ≤ c.toNat ∧ c.toNat ≤ 90
  · rw [if_pos h, toLower_eq, if_pos h, char_ofNat_toNat (Or.inl (by omega))]
  · rw [if_neg h, toLower_eq, if_neg h]

theorem isUpper_toNat (c : Char) :
    c.isUpper = (decide (65 ≤ c.toNat) && decide (c.toNat ≤ 90)) := by
  simp [Char.isUpper, Char.toNat, UInt32.le_def, BitVec.le_def]
  rfl

theorem isLower_toNat (c : Char) :
    c.isLower = (decide (97 ≤ c.toNat) && decide (c.toNat ≤ 122)) := by
  simp [Char.isLower, Char.toNat, UInt32.le_def, BitVec.le_def]
  rfl

theorem isDigit_toNat (c : Char) :
    c.isDigit = (decide (48 ≤ c.toNat) && decide (c.toNat ≤ 57)) := by
  simp [Char.isDigit, Char.toNat, UInt32.le_def, BitVec.le_def]
  rfl

theorem char_eq_iff_toNat {c d : Char} : c = d ↔ c.toNat = d.toNat :=
  ⟨fun h => h ▸ rfl, char_toNat_inj⟩

theorem toLower_toLower (c : Char) : c.toLower.toLower = c.toLower := by
  by_cases h : 65 ≤ c.toNat ∧ c.toNat ≤ 90
  · have hn : (c.toLower).toNat = c.toNat + 32 := by rw [toLower_toNat, if_pos h]
    rw [toLower_eq c.toLower, if_neg (by omega)]
  · have he : c.toLower = c := by rw [toLower_eq, if_neg h]
    rw [he, he]

theorem isAlpha_toLower {c : Char} (h : c.isAlpha = true) : c.toLower.isAlpha = true := by
  rw [Char.isAlpha, Bool.or_eq_true, isUpper_toNat, isLower_toNat] at h ⊢
  simp only [Bool.and_eq_true, decide_eq_true_eq] at h ⊢
  rw [toLower_toNat]
  by_cases hu : 65 ≤ c.toNat ∧ c.toNat ≤ 90
  · rw [if_pos hu]
    omega
  · rw [if_neg hu]
    omega

theorem isSchemeChar_toLower {c : Char} (h : isSchemeChar c = true) :
    isSchemeChar c.toLower = true := by
  simp only [isSchemeChar, Bool.or_eq_true] at h ⊢
  rcases h with (((ha | hd) | hp) | hm) | hdot
  · exact Or.inl (Or.inl (Or.inl (Or.inl (isAlpha_toLower ha))))
  · rw [isDigit_toNat, Bool.and_eq_true, decide_eq_true_eq, decide_eq_true_eq] at hd
    refine Or.inl (Or.inl (Or.inl (Or.inr ?_)))
    rw [isDigit_toNat, Bool.and_eq_true, decide_eq_true_eq, decide_eq_true_eq, toLower_toNat,
      if_neg (by omega)]
    exact hd
  · rw [beq_iff_eq.mp hp]
    exact Or.inl (Or.inl (Or.inr (by decide)))
  · rw [beq_iff_eq.mp hm]
    exact Or.inl (Or.inr (by decide))
  · rw [beq_iff_eq.mp hdot]
    exact Or.inr (by decide)

/-! ## Fragment invariance of the split functions -/

theorem mem_all_false {p : Char → Bool} {l : List Char} {x : Char} (hx : x ∈ l)
    (hp : p x = false) : l.all p = false := by
  cases h : l.all p with
  | false => rfl
  | true =>
    have := List.all_eq_true.mp h x hx
    rw [hp] at this
    cases this

theorem splitScheme_hash (a b : List Char) :
    splitScheme (a ++ '#' :: b) = ((splitScheme a).1, (splitScheme a).2 ++ '#' :: b) := by
  cases ha : a.all (fun c => c != ':') with
  | false =>
    obtain ⟨c, r, hdrop, hpc⟩ := all_false_dropWhile_cons ha
    have hc : c = ':' := by simpa using hpc
    subst hc
    have hd2 : (a ++ '#' :: b).dropWhile (fun c => c != ':') = ':' :: (r ++ '#' :: b) := by
      rw [dropWhile_app_stop _ ha, hdrop]
      rfl
    have ht2 : (a ++ '#' :: b).takeWhile (fun c => c != ':') =
        a.takeWhile (fun c => c != ':') := takeWhile_app_stop _ ha
    rw [splitScheme, splitScheme, hd2, hdrop, ht2]
    by_cases hP : (a.takeWhile (fun c => c != ':') ≠ [] ∧
        ((a.takeWhile (fun c => c != ':')).headD 'x').isAlpha = true ∧
        (a.takeWhile (fun c => c != ':')).all isSchemeChar = true)
    · rw [if_pos ⟨List.cons_ne_nil _ _, hP⟩, if_pos ⟨List.cons_ne_nil _ _, hP⟩]
      rfl
    · rw [if_neg (fun h => hP h.2), if_neg (fun h => hP h.2)]
  | true =>
    have ht2 : (a ++ '#' :: b).takeWhile (fun c => c != ':') =
        a ++ ('#' :: b).takeWhile (fun c => c != ':') := takeWhile_app_all _ ha
    have hd2 : (a ++ '#' :: b).dropWhile (fun c => c != ':') =
        ('#' :: b).dropWhile (fun c => c != ':') := dropWhile_app_all _ ha
    have hta : a.takeWhile (fun c => c != ':') = a :=
      List.takeWhile_eq_self_iff.mpr (fun x hx => List.all_eq_true.mp ha x hx)
    have hda : a.dropWhile (fun c => c != ':') = [] :=
      List.dropWhile_eq_nil_iff.mpr (fun x hx => List.all_eq_true.mp ha x hx)
    rw [show ('#' :: b).takeWhile (fun c => c != ':') = '#' :: b.takeWhile (fun c => c != ':')
      from rfl] at ht2
    rw [show ('#' :: b).dropWhile (fun c => c != ':') = b.dropWhile (fun c => c != ':')
      from rfl] at hd2
    rw [splitScheme, splitScheme, ht2, hd2, hta, hda]
    have hRHS : (if ([] : List Char) ≠ [] ∧ a ≠ [] ∧ ((a.headD 'x')).isAlpha = true ∧
        a.all isSchemeChar = true then
          (a.map Char.toLower, ([] : List Char).tail) else ([], a)) = ([], a) :=
      if_neg (fun h => h.1 rfl)
    rw [hRHS]
    cases hb : b.all (fun c => c != ':') with
    | true =>
      have hdb : b.dropWhile (fun c => c != ':') = [] :=
        List.dropWhile_eq_nil_iff.mpr (fun x hx => List.all_eq_true.mp hb x hx)
      rw [hdb, if_neg (fun h => h.1 rfl)]
    | false =>
      obtain ⟨c, r, hdropb, hpcb⟩ := all_false_dropWhile_cons hb
      have hcb : c = ':' := by simpa using hpcb
      subst hcb
      rw [hdropb]
      have hallf : (a ++ '#' :: b.takeWhile (fun c => c != ':')).all isSchemeChar = false :=
        @mem_all_false isSchemeChar _ '#' (by simp) (by decide)
      rw [if_neg (fun h => Bool.false_ne_true (hallf ▸ h.2.2.2))]

theorem splitNetloc_hash (a b : List Char) :
    splitNetloc (a ++ '#' :: b) = ((splitNetloc a).1, (splitNetloc a).2 ++ '#' :: b) := by
  by_cases h2 : a.take 2 = ['/', '/']
  · obtain ⟨t, rfl⟩ : ∃ t, a = '/' :: '/' :: t := by
      rcases a with _ | ⟨c1, _ | ⟨c2, t⟩⟩
      · simp at h2
      · have h22 : ([c1] : List Char) = ['/', '/'] := h2
        injection h22 with _ h23
        exact absurd h23 (by simp)
      · have h22 : ([c1, c2] : List Char) = ['/', '/'] := h2
        injection h22 with e1 h23
        injection h23 with e2 _
        exact ⟨t, by rw [e1, e2]⟩
    have hdrop2 : ∀ x : List Char, List.drop 2 ('/' :: '/' :: x) = x := fun x => rfl
    simp only [splitNetloc]
    simp only [List.cons_append]
    rw [if_pos (show (('/' :: '/' :: (t ++ '#' :: b) : List Char)).take 2 = ['/', '/'] from rfl),
        if_pos (show (('/' :: '/' :: t : List Char)).take 2 = ['/', '/'] from rfl)]
    rw [hdrop2, hdrop2]
    rw [takeWhile_stop_append (by decide) t b, dropWhile_stop_append (by decide) t b]
  · have h2b : ¬((a ++ '#' :: b).take 2 = ['/', '/']) := by
      rcases a with _ | ⟨c1, _ | ⟨c2, t⟩⟩
      · intro hcc
        have hcc2 : ('#' :: b.take 1 : List Char) = ['/', '/'] := hcc
        injection hcc2 with h1 _
        exact absurd h1 (by decide)
      · intro hcc
        have hcc2 : ([c1, '#'] : List Char) = ['/', '/'] := hcc
        injection hcc2 with _ h2c
        injection h2c with h3 _
        exact absurd h3 (by decide)
      · simpa using h2
    rw [splitNetloc, splitNetloc, if_neg h2, if_neg h2b]

theorem splitAtChar_hash_fst (x y : List Char) :
    (splitAtChar '#' (x ++ '#' :: y)).1 = (splitAtChar '#' x).1 := by
  rw [splitAtChar, splitAtChar]
  exact takeWhile_stop_append (by decide) x y

theorem urlsplit_hash (a b d : List Char) :
    (urlsplit (a ++ '#' :: b) d).map dropFragSplit = (urlsplit a d).map dropFragSplit := by
  rw [urlsplit, urlsplit]
  rw [lstripC0_hash, sanitize_append, sanitize_hash_cons]
  rw [splitScheme_hash (sanitize (lstripC0 a)) (sanitize b)]
  rw [splitNetloc_hash]
  rcases hnp : splitNetloc (splitScheme (sanitize (lstripC0 a))).2 with ⟨nl, rest⟩
  simp only
  by_cases hbr : bracketsOk nl = true
  · rw [if_pos hbr, if_pos hbr]
    simp only [Option.map_some']
    rw [splitAtChar_hash_fst]
    rfl
  · rw [if_neg hbr, if_neg hbr]

theorem urlparse_hash (a b d : List Char) :
    (urlparse (a ++ '#' :: b) d).map dropFragParsed = (urlparse a d).map dropFragParsed := by
  rw [urlparse, urlparse]
  have h := urlsplit_hash a b d
  cases h1 : urlsplit (a ++ '#' :: b) d with
  | none =>
    rw [h1] at h
    cases h2 : urlsplit a d with
    | none => rfl
    | some s =>
      rw [h2] at h
      cases h
  | some s1 =>
    rw [h1] at h
    cases h2 : urlsplit a d with
    | none =>
      rw [h2] at h
      cases h
    | some s2 =>
      rw [h2] at h
      simp only [Option.map_some', Option.some.injEq] at h ⊢
      have hs : s1.scheme = s2.scheme ∧ s1.netloc = s2.netloc ∧ s1.path = s2.path ∧
          s1.query = s2.query := by
        rcases s1 with ⟨x1, x2, x3, x4, x5⟩
        rcases s2 with ⟨y1, y2, y3, y4, y5⟩
        rw [dropFragSplit, dropFragSplit, SplitUrl.mk.injEq] at h
        exact ⟨h.1, h.2.1, h.2.2.1, h.2.2.2.1⟩
      rw [dropFragParsed, dropFragParsed]
      rw [hs.1, hs.2.1, hs.2.2.1, hs.2.2.2]

/-! ## Fragment invariance of canonicalization -/

theorem cleanParsed_eq_of_dropFrag {r1 r2 : ParsedUrl}
    (h : dropFragParsed r1 = dropFragParsed r2) : cleanParsed r1 = cleanParsed r2 := by
  rcases r1 with ⟨s1, n1, p1, pr1, q1, f1⟩
  rcases r2 with ⟨s2, n2, p2, pr2, q2, f2⟩
  simp only [dropFragParsed, ParsedUrl.mk.injEq] at h
  rcases h with ⟨hs, hn, hp, hpr, hq, -⟩
  subst hs
  subst hn
  subst hp
  subst hpr
  subst hq
  rfl

theorem map_clean_of_map_dropFrag {o1 o2 : Option ParsedUrl}
    (h : o1.map dropFragParsed = o2.map dropFragParsed) :
    o1.map cleanParsed = o2.map cleanParsed := by
  cases o1 with
  | none =>
    cases o2 with
    | none => rfl
    | some r =>
      rw [Option.map_none', Option.map_some'] at h
      cases h
  | some r1 =>
    cases o2 with
    | none =>
      rw [Option.map_none', Option.map_some'] at h
      cases h
    | some r2 =>
      rw [Option.map_some', Option.map_some'] at h ⊢
      rw [cleanParsed_eq_of_dropFrag (Option.some.inj h)]

theorem cleanOf_hash (a b : List Char) : cleanOf (a ++ '#' :: b) = cleanOf a := by
  rw [cleanOf, cleanOf]
  exact map_clean_of_map_dropFrag (urlparse_hash a b [])

theorem urlunsplit_frag (s n p q : List Char) {f : List Char} (hf : f ≠ []) :
    urlunsplit s n p q f = urlunsplit s n p q [] ++ '#' :: f := by
  simp only [urlunsplit]
  rw [if_pos hf, if_neg (fun hh : ([] : List Char) ≠ [] => hh rfl)]

theorem urlunparse_frag (s n p par q : List Char) {f : List Char} (hf : f ≠ []) :
    urlunparse s n p par q f = urlunparse s n p par q [] ++ '#' :: f := by
  rw [urlunparse, urlunparse]
  exact urlunsplit_frag _ _ _ _ hf

theorem cleanOf_urlunparse_frag (s n p par q f : List Char) :
    cleanOf (urlunparse s n p par q f) = cleanOf (urlunparse s n p par q []) := by
  by_cases hf : f = []
  · rw [hf]
  · rw [urlunparse_frag s n p par q hf, cleanOf_hash]

theorem urljoin_base_unfold (u : List Char) (hu : u ≠ []) :
    urljoin guitariansBase u = (urlparse u "https".data).map (fun r => joinBranch r u) := by
  have hb : urlparse guitariansBase [] = some baseParsed := by decide
  rw [urljoin, if_neg (show ¬(guitariansBase = []) by decide), if_neg hu, hb, Option.some_bind]
  rfl

theorem cleanOf_joinBranch_eq {r1 r2 : ParsedUrl} (u1 u2 : List Char)
    (h : dropFragParsed r1 = dropFragParsed r2) (hu : cleanOf u1 = cleanOf u2) :
    cleanOf (joinBranch r1 u1) = cleanOf (joinBranch r2 u2) := by
  rcases r1 with ⟨s1, n1, p1, pr1, q1, f1⟩
  rcases r2 with ⟨s2, n2, p2, pr2, q2, f2⟩
  simp only [dropFragParsed, ParsedUrl.mk.injEq] at h
  rcases h with ⟨hs, hn, hp, hpr, hq, -⟩
  subst hs
  subst hn
  subst hp
  subst hpr
  subst hq
  simp only [joinBranch]
  by_cases hc1 : (s1 ≠ baseParsed.scheme ∨ s1 ∉ usesRelative)
  · rw [if_pos hc1, if_pos hc1]
    exact hu
  · rw [if_neg hc1, if_neg hc1]
    by_cases hc2 : (s1 ∈ usesNetloc ∧ n1 ≠ [])
    · rw [if_pos hc2, if_pos hc2]
      exact (cleanOf_urlunparse_frag _ _ _ _ _ f1).trans
        (cleanOf_urlunparse_frag _ _ _ _ _ f2).symm
    · rw [if_neg hc2, if_neg hc2]
      by_cases hc3 : (p1 = [] ∧ pr1 = [])
      · rw [if_pos hc3, if_pos hc3]
        exact (cleanOf_urlunparse_frag _ _ _ _ _ f1).trans
          (cleanOf_urlunparse_frag _ _ _ _ _ f2).symm
      · rw [if_neg hc3, if_neg hc3]
        exact (cleanOf_urlunparse_frag _ _ _ _ _ f1).trans
          (cleanOf_urlunparse_frag _ _ _ _ _ f2).symm

theorem splitScheme_hashHead (w : List Char) : splitScheme ('#' :: w) = ([], '#' :: w) := by
  rw [splitScheme, if_neg]
  intro h
  have h3 : (('#' : Char).isAlpha) = true := h.2.2.1
  exact absurd h3 (by decide)

theorem splitNetloc_hashHead (w : List Char) : splitNetloc ('#' :: w) = ([], '#' :: w) := by
  rw [splitNetloc, if_neg]
  intro h
  have h2 : ('#' :: w.take 1 : List Char) = ['/', '/'] := h
  injection h2 with h3 _
  exact absurd h3 (by decide)

theorem urlparse_hashHead (x : List Char) :
    urlparse ('#' :: x) "https".data = some ⟨"https".data, [], [], [], [], sanitize x⟩ := by
  simp only [urlparse, urlsplit]
  rw [@lstripC0_cons '#' x (by decide), sanitize_hash_cons, splitScheme_hashHead,
    splitNetloc_hashHead]
  rfl

theorem joinBranch_hashHead (x w : List Char) :
    joinBranch ⟨"https".data, [], [], [], [], x⟩ w =
      urlunparse "https".data "zh-hk.guitarians.com".data [] [] [] x := by
  simp only [joinBranch]
  rw [if_neg (by decide), if_neg (by decide), if_pos (by decide)]
  rw [if_pos (show "https".data ∈ usesNetloc by decide)]
  rfl

theorem bind_clean_joinBranch {o1 o2 : Option ParsedUrl} (u1 u2 : List Char)
    (h : o1.map dropFragParsed = o2.map dropFragParsed) (hu : cleanOf u1 = cleanOf u2) :
    (o1.map (fun r => joinBranch r u1)).bind cleanOf =
      (o2.map (fun r => joinBranch r u2)).bind cleanOf := by
  cases o1 with
  | none =>
    cases o2 with
    | none => rfl
    | some r2 =>
      rw [Option.map_none', Option.map_some'] at h
      cases h
  | some r1 =>
    cases o2 with
    | none =>
      rw [Option.map_some', Option.map_none'] at h
      cases h
    | some r2 =>
      rw [Option.map_some', Option.map_some'] at h
      simp only [Option.map_some', Option.some_bind]
      exact cleanOf_joinBranch_eq _ _ (Option.some.inj h) hu

/-- Canonicalization ignores everything from the first `#` of the href on. -/
theorem canonChars_hash (u x : List Char) : canonChars (u ++ '#' :: x) = canonChars u := by
  by_cases hu : u = []
  · subst hu
    rw [List.nil_append, canonChars, canonChars]
    rw [urljoin_base_unfold ('#' :: x) (List.cons_ne_nil _ _), urlparse_hashHead]
    rw [Option.map_some', Option.some_bind, joinBranch_hashHead]
    rw [cleanOf_urlunparse_frag]
    rw [urljoin, if_neg (show ¬(guitariansBase = []) by decide), if_pos rfl, Option.some_bind]
    decide
  · rw [canonChars, canonChars]
    rw [urljoin_base_unfold (u ++ '#' :: x) (by simp), urljoin_base_unfold u hu]
    exact bind_clean_joinBranch _ _ (urlparse_hash u x "https".data) (cleanOf_hash u x)


/-! ## Properties of `splitParams` and `lastSegment` -/

theorem contains_true {l : List Char} {c : Char} : l.contains c = true ↔ c ∈ l := by simp

theorem contains_false {l : List Char} {c : Char} : l.contains c = false ↔ c ∉ l := by
  rw [← Bool.not_eq_true, not_iff_not]
  exact contains_true

theorem splitParams_eq_slash_semi {p : List Char} (h1 : p.contains '/' = true)
    (h2 : (lastSegment p).contains ';' = true) :
    splitParams p = ((p.reverse.dropWhile (· != '/')).reverse ++ (lastSegment p).takeWhile (· != ';'),
      ((lastSegment p).dropWhile (· != ';')).tail) := by
  rw [splitParams, if_pos h1]
  rw [lastSegment] at h2
  rw [if_pos h2]
  rfl

theorem splitParams_eq_slash_nosemi {p : List Char} (h1 : p.contains '/' = true)
    (h2 : (lastSegment p).contains ';' = false) :
    splitParams p = (p, []) := by
  rw [splitParams, if_pos h1]
  rw [lastSegment] at h2
  rw [if_neg (by rw [h2]; exact Bool.false_ne_true)]

theorem splitParams_eq_noslash_semi {p : List Char} (h1 : p.contains '/' = false)
    (h2 : p.contains ';' = true) :
    splitParams p = (p.takeWhile (· != ';'), (p.dropWhile (· != ';')).tail) := by
  rw [splitParams, if_neg (by rw [h1]; exact Bool.false_ne_true), if_pos h2]

theorem splitParams_eq_noslash_nosemi {p : List Char} (h1 : p.contains '/' = false)
    (h2 : p.contains ';' = false) :
    splitParams p = (p, []) := by
  rw [splitParams, if_neg (by rw [h1]; exact Bool.false_ne_true),
    if_neg (by rw [h2]; exact Bool.false_ne_true)]

theorem mem_of_mem_takeWhile {p : Char → Bool} {l : List Char} {x : Char}
    (h : x ∈ l.takeWhile p) : x ∈ l := (List.takeWhile_sublist p).mem h

theorem mem_of_mem_dropWhile {p : Char → Bool} {l : List Char} {x : Char}
    (h : x ∈ l.dropWhile p) : x ∈ l := (List.dropWhile_sublist p).mem h

theorem mem_of_mem_tail {l : List Char} {x : Char} (h : x ∈ l.tail) : x ∈ l :=
  (List.tail_sublist l).mem h

theorem reverse_split (l : List Char) (p : Char → Bool) :
    l = (l.reverse.dropWhile p).reverse ++ (l.reverse.takeWhile p).reverse := by
  have h := List.takeWhile_append_dropWhile p l.reverse
  calc l = l.reverse.reverse := (List.reverse_reverse l).symm
    _ = (l.reverse.takeWhile p ++ l.reverse.dropWhile p).reverse := by rw [h]
    _ = (l.reverse.dropWhile p).reverse ++ (l.reverse.takeWhile p).reverse := by
        rw [List.reverse_append]

theorem mem_lastSegment {p : List Char} {x : Char} (h : x ∈ lastSegment p) : x ∈ p := by
  rw [lastSegment, List.mem_reverse] at h
  have := mem_of_mem_takeWhile h
  rw [List.mem_reverse] at this
  exact this

theorem mem_splitParams_path {l : List Char} {x : Char} (h : x ∈ (splitParams l).1) :
    x ∈ l := by
  by_cases h1 : l.contains '/' = true
  · by_cases h2 : (lastSegment l).contains ';' = true
    · rw [splitParams_eq_slash_semi h1 h2] at h
      rcases List.mem_append.mp h with h3 | h3
      · rw [List.mem_reverse] at h3
        have := mem_of_mem_dropWhile h3
        rw [List.mem_reverse] at this
        exact this
      · exact mem_lastSegment (mem_of_mem_takeWhile h3)
    · rw [splitParams_eq_slash_nosemi h1 (Bool.eq_false_iff.mpr h2)] at h
      exact h
  · by_cases h2 : l.contains ';' = true
    · rw [splitParams_eq_noslash_semi (Bool.eq_false_iff.mpr h1) h2] at h
      exact mem_of_mem_takeWhile h
    · rw [splitParams_eq_noslash_nosemi (Bool.eq_false_iff.mpr h1) (Bool.eq_false_iff.mpr h2)] at h
      exact h

theorem mem_splitParams_params {l : List Char} {x : Char} (h : x ∈ (splitParams l).2) :
    x ∈ l := by
  by_cases h1 : l.contains '/' = true
  · by_cases h2 : (lastSegment l).contains ';' = true
    · rw [splitParams_eq_slash_semi h1 h2] at h
      exact mem_lastSegment (mem_of_mem_dropWhile (mem_of_mem_tail h))
    · rw [splitParams_eq_slash_nosemi h1 (Bool.eq_false_iff.mpr h2)] at h
      simp at h
  · by_cases h2 : l.contains ';' = true
    · rw [splitParams_eq_noslash_semi (Bool.eq_false_iff.mpr h1) h2] at h
      exact mem_of_mem_dropWhile (mem_of_mem_tail h)
    · rw [splitParams_eq_noslash_nosemi (Bool.eq_false_iff.mpr h1) (Bool.eq_false_iff.mpr h2)] at h
      simp at h

theorem lastSegment_no_slash {p : List Char} (h : '/' ∉ p) : lastSegment p = p := by
  rw [lastSegment, List.takeWhile_eq_self_iff.mpr, List.reverse_reverse]
  intro a ha
  rw [bne_iff_ne]
  intro he
  subst he
  exact h (List.mem_reverse.mp ha)

theorem lastSegment_append_mem {l r : List Char} (h : '/' ∈ r) :
    lastSegment (l ++ r) = lastSegment r := by
  rw [lastSegment, lastSegment, List.reverse_append]
  have hall : (r.reverse.all (· != '/')) = false :=
    mem_all_false (List.mem_reverse.mpr h) (by simp)
  rw [takeWhile_app_stop _ hall]

theorem splitParams_no_semi {p : List Char} (h : ';' ∉ lastSegment p) :
    splitParams p = (p, []) := by
  by_cases h1 : p.contains '/' = true
  · exact splitParams_eq_slash_nosemi h1 (contains_false.mpr h)
  · have h1' := Bool.eq_false_iff.mpr h1
    refine splitParams_eq_noslash_nosemi h1' (contains_false.mpr ?_)
    rw [lastSegment_no_slash (contains_false.mp h1')] at h
    exact h

theorem lastSegment_no_slash_mem {p : List Char} {c : Char} (h : c ∈ lastSegment p) :
    c ≠ '/' := by
  rw [lastSegment, List.mem_reverse] at h
  have := List.mem_takeWhile_imp h
  rwa [bne_iff_ne] at this

theorem head?_append_left {l m : List Char} (h : l ≠ []) : (l ++ m).head? = l.head? := by
  cases l with
  | nil => exact absurd rfl h
  | cons a t => simp

theorem lastSegment_append_slash {z tw : List Char} (h : '/' ∉ tw) :
    lastSegment (z ++ '/' :: tw) = tw := by
  rw [lastSegment, List.reverse_append, List.reverse_cons, List.append_assoc,
    List.singleton_append]
  have hall : tw.reverse.all (· != '/') = true :=
    List.all_eq_true.mpr (fun x hx => by
      rw [bne_iff_ne]
      intro he
      subst he
      exact h (List.mem_reverse.mp hx))
  rw [takeWhile_app_all _ hall]
  rw [show (('/' :: z.reverse : List Char).takeWhile (· != '/')) = [] from by
    simp [List.takeWhile_cons]]
  rw [List.append_nil, List.reverse_reverse]

theorem lastSegment_semi_free (l : List Char) : ';' ∉ lastSegment ((splitParams l).1) := by
  by_cases h1 : l.contains '/' = true
  · by_cases h2 : (lastSegment l).contains ';' = true
    · rw [splitParams_eq_slash_semi h1 h2]
      rcases all_false_dropWhile_cons (mem_all_false
        (List.mem_reverse.mpr (contains_true.mp h1)) (by simp) :
        (l.reverse.all (· != '/')) = false) with ⟨c, r, hd, hp⟩
      have hc : c = '/' := by simpa using hp
      subst hc
      have htw : '/' ∉ (lastSegment l).takeWhile (· != ';') := fun hmem =>
        lastSegment_no_slash_mem (mem_of_mem_takeWhile hmem) rfl
      rw [hd, List.reverse_cons, List.append_assoc, List.singleton_append,
        lastSegment_append_slash htw]
      intro hmem
      have := List.mem_takeWhile_imp hmem
      simp at this
    · rw [splitParams_eq_slash_nosemi h1 (Bool.eq_false_iff.mpr h2)]
      exact contains_false.mp (Bool.eq_false_iff.mpr h2)
  · have h1' : '/' ∉ l := contains_false.mp (Bool.eq_false_iff.mpr h1)
    by_cases h2 : l.contains ';' = true
    · rw [splitParams_eq_noslash_semi (Bool.eq_false_iff.mpr h1) h2]
      have hns : '/' ∉ l.takeWhile (· != ';') := fun hmem =>
        h1' (mem_of_mem_takeWhile hmem)
      rw [lastSegment_no_slash hns]
      intro hmem
      have := List.mem_takeWhile_imp hmem
      simp at this
    · rw [splitParams_eq_noslash_nosemi (Bool.eq_false_iff.mpr h1) (Bool.eq_false_iff.mpr h2)]
      rw [lastSegment_no_slash h1']
      exact contains_false.mp (Bool.eq_false_iff.mpr h2)

theorem splitParams_head (p : List Char) :
    (splitParams p).1 = [] ∨ (splitParams p).1.head? = p.head? := by
  by_cases h1 : p.contains '/' = true
  · by_cases h2 : (lastSegment p).contains ';' = true
    · rw [splitParams_eq_slash_semi h1 h2]
      refine Or.inr ?_
      have hX : ((p.reverse.dropWhile (· != '/')).reverse : List Char) ≠ [] := by
        rcases all_false_dropWhile_cons (mem_all_false
          (List.mem_reverse.mpr (contains_true.mp h1)) (by simp) :
          (p.reverse.all (· != '/')) = false) with ⟨c, r, hd, hp⟩
        rw [hd]
        simp
      rw [head?_append_left hX]
      have hsplit := reverse_split p (· != '/')
      calc ((p.reverse.dropWhile (· != '/')).reverse : List Char).head?
          = ((p.reverse.dropWhile (· != '/')).reverse ++
              (p.reverse.takeWhile (· != '/')).reverse).head? :=
            (head?_append_left hX).symm
        _ = p.head? := by rw [← hsplit]
    · rw [splitParams_eq_slash_nosemi h1 (Bool.eq_false_iff.mpr h2)]
      exact Or.inr rfl
  · by_cases h2 : p.contains ';' = true
    · rw [splitParams_eq_noslash_semi (Bool.eq_false_iff.mpr h1) h2]
      cases p with
      | nil => exact Or.inl rfl
      | cons a t =>
        by_cases ha : (a != ';') = true
        · rw [List.takeWhile_cons, if_pos ha]
          exact Or.inr rfl
        · rw [List.takeWhile_cons, if_neg ha]
          exact Or.inl rfl
    · rw [splitParams_eq_noslash_nosemi (Bool.eq_false_iff.mpr h1) (Bool.eq_false_iff.mpr h2)]
      exact Or.inr rfl

theorem paramsSplit_no_semi {sch p : List Char}
    (h : sch ∈ usesParams → ';' ∉ lastSegment p) : paramsSplit sch p = (p, []) := by
  by_cases hg : (sch ∈ usesParams ∧ p.contains ';' = true)
  · rw [paramsSplit, if_pos hg]
    exact splitParams_no_semi (h hg.1)
  · rw [paramsSplit, if_neg hg]

theorem paramsSplit_head (sch p : List Char) :
    (paramsSplit sch p).1 = [] ∨ (paramsSplit sch p).1.head? = p.head? := by
  by_cases hg : (sch ∈ usesParams ∧ p.contains ';' = true)
  · rw [paramsSplit, if_pos hg]
    exact splitParams_head p
  · rw [paramsSplit, if_neg hg]
    exact Or.inr rfl

theorem paramsSplit_semi {sch p : List Char} (hs : sch ∈ usesParams) :
    ';' ∉ lastSegment (paramsSplit sch p).1 := by
  by_cases hg : (sch ∈ usesParams ∧ p.contains ';' = true)
  · rw [paramsSplit, if_pos hg]
    exact lastSegment_semi_free p
  · rw [paramsSplit, if_neg hg]
    intro hm
    exact hg ⟨hs, contains_true.mpr (mem_lastSegment hm)⟩

theorem mem_paramsSplit_path {sch p : List Char} {x : Char}
    (h : x ∈ (paramsSplit sch p).1) : x ∈ p := by
  by_cases hg : (sch ∈ usesParams ∧ p.contains ';' = true)
  · rw [paramsSplit, if_pos hg] at h
    exact mem_splitParams_path h
  · rw [paramsSplit, if_neg hg] at h
    exact h

theorem mem_paramsSplit_params {sch p : List Char} {x : Char}
    (h : x ∈ (paramsSplit sch p).2) : x ∈ p := by
  by_cases hg : (sch ∈ usesParams ∧ p.contains ';' = true)
  · rw [paramsSplit, if_pos hg] at h
    exact mem_splitParams_params h
  · rw [paramsSplit, if_neg hg] at h
    cases h

theorem getLastD_mem {l : List (List Char)} (d : List Char) (h : l ≠ []) : l.getLastD d ∈ l := by
  induction l generalizing d with
  | nil => exact absurd rfl h
  | cons a t ih =>
    rw [List.getLastD_cons]
    cases ht : t with
    | nil => simp [List.getLastD]
    | cons b r =>
      rw [← ht]
      exact List.mem_cons_of_mem a (ih a (by rw [ht]; exact List.cons_ne_nil _ _))

theorem dropWhile_head_false {p : Char → Bool} {l : List Char} :
    ∀ {c : Char} {t : List Char}, l.dropWhile p = c :: t → p c = false := by
  induction l with
  | nil => intro c t h; simp at h
  | cons a r ih =>
    intro c t h
    rw [List.dropWhile_cons] at h
    by_cases hp : p a = true
    · rw [if_pos hp] at h
      exact ih h
    · rw [if_neg hp] at h
      injection h with h1 h2
      rw [← h1]
      exact Bool.eq_false_iff.mpr hp

/-! ## Normal forms of the rebuild functions -/

theorem cleanShape_eq (s n p q : List Char) :
    cleanShape s n p q = s ++ ':' :: '/' :: '/' :: (n ++ (p ++ optQ q)) := by
  by_cases hq : q = []
  · subst hq
    simp [cleanShape, optQ]
  · simp [cleanShape, optQ, hq, List.append_assoc]

theorem cleanShape_ne_nil {s : List Char} (n p q : List Char) (hs : s ≠ []) :
    cleanShape s n p q ≠ [] := by
  rw [cleanShape_eq]
  cases s with
  | nil => exact absurd rfl hs
  | cons a t => simp

theorem alpha_not_c0 {c : Char} (h : c.isAlpha = true) : isC0OrSpace c = false := by
  rw [Char.isAlpha, Bool.or_eq_true, isUpper_toNat, isLower_toNat] at h
  simp only [Bool.and_eq_true, decide_eq_true_eq] at h
  rw [isC0OrSpace]
  simp only [decide_eq_false_iff_not]
  omega

theorem lstripC0_cleanShape {s : List Char} (n p q : List Char) (hs : s ≠ [])
    (hh : (s.headD 'x').isAlpha = true) :
    lstripC0 (cleanShape s n p q) = cleanShape s n p q := by
  cases s with
  | nil => exact absurd rfl hs
  | cons a t =>
    rw [cleanShape_eq, List.cons_append]
    exact lstripC0_cons (alpha_not_c0 hh)

theorem sanitize_cons_keep {c : Char} (hc : (!unsafeUrlChars.contains c) = true)
    (l : List Char) : sanitize (c :: l) = c :: sanitize l := by
  rw [sanitize, List.filter_cons, if_pos hc]
  rfl

theorem sanitize_optQ {q : List Char} (hq : sanitize q = q) : sanitize (optQ q) = optQ q := by
  by_cases h : q = []
  · subst h
    rfl
  · rw [optQ, if_pos h, sanitize_cons_keep (by decide), hq]

theorem sanitize_optF {f : List Char} (hf : sanitize f = f) : sanitize (optF f) = optF f := by
  by_cases h : f = []
  · subst h
    rfl
  · rw [optF, if_pos h, sanitize_cons_keep (by decide), hf]

theorem sanitize_insertSlash {p : List Char} (hp : sanitize p = p) :
    sanitize (insertSlash p) = insertSlash p := by
  rw [insertSlash]
  by_cases h : p ≠ [] ∧ p.head? ≠ some '/'
  · rw [if_pos h, sanitize_cons_keep (by decide), hp]
  · rw [if_neg h]
    exact hp

theorem sanitize_cleanShape {s n p q : List Char} (hs : sanitize s = s)
    (hn : sanitize n = n) (hp : sanitize p = p) (hq : sanitize q = q) :
    sanitize (cleanShape s n p q) = cleanShape s n p q := by
  rw [cleanShape_eq, sanitize_append, hs, sanitize_cons_keep (by decide),
    sanitize_cons_keep (by decide), sanitize_cons_keep (by decide), sanitize_append, hn,
    sanitize_append, hp, sanitize_optQ hq]

theorem isSchemeChar_ne_colon {c : Char} (h : isSchemeChar c = true) : (c != ':') = true := by
  rw [bne_iff_ne]
  intro he
  subst he
  exact absurd h (by decide)

theorem splitScheme_explicit {s : List Char} (w : List Char) (hs1 : s ≠ [])
    (hh : (s.headD 'x').isAlpha = true) (hsc : s.all isSchemeChar = true)
    (hlow : s.map Char.toLower = s) :
    splitScheme (s ++ ':' :: w) = (s, w) := by
  have hne : s.all (· != ':') = true :=
    List.all_eq_true.mpr (fun c hc => isSchemeChar_ne_colon (List.all_eq_true.mp hsc c hc))
  have ht : (s ++ ':' :: w).takeWhile (· != ':') = s := by
    rw [takeWhile_app_all _ hne, show ((':' :: w : List Char).takeWhile (· != ':')) = [] from by
      simp [List.takeWhile_cons], List.append_nil]
  have hd : (s ++ ':' :: w).dropWhile (· != ':') = ':' :: w := by
    rw [dropWhile_app_all _ hne, show ((':' :: w : List Char).dropWhile (· != ':')) = ':' :: w from by
      simp [List.dropWhile_cons]]
  rw [splitScheme, ht, hd, if_pos ⟨List.cons_ne_nil _ _, hs1, hh, hsc⟩, hlow]
  rfl

theorem splitNetloc_slashes (l : List Char) :
    splitNetloc ('/' :: '/' :: l) =
      (l.takeWhile (fun c => !(isNetlocDelim c)), l.dropWhile (fun c => !(isNetlocDelim c))) := by
  rw [splitNetloc, if_pos (show List.take 2 ('/' :: '/' :: l) = ['/', '/'] from rfl)]
  rfl

theorem splitAtChar_no_mem {ch : Char} {l : List Char} (h : ch ∉ l) :
    splitAtChar ch l = (l, []) := by
  have hall : l.all (· != ch) = true :=
    List.all_eq_true.mpr (fun c hc => by
      rw [bne_iff_ne]
      intro he
      subst he
      exact h hc)
  rw [splitAtChar, List.takeWhile_eq_self_iff.mpr (fun c hc => List.all_eq_true.mp hall c hc),
    List.dropWhile_eq_nil_iff.mpr (fun c hc => List.all_eq_true.mp hall c hc)]
  rfl

theorem splitAtChar_found {ch : Char} {x : List Char} (y : List Char) (hx : ch ∉ x) :
    splitAtChar ch (x ++ ch :: y) = (x, y) := by
  have hpc : ((ch != ch) = false) := by simp
  have htx : x.takeWhile (· != ch) = x :=
    List.takeWhile_eq_self_iff.mpr (fun c hc => by
      rw [bne_iff_ne]
      intro he
      subst he
      exact hx hc)
  have hdx : x.dropWhile (· != ch) = [] :=
    List.dropWhile_eq_nil_iff.mpr (fun c hc => by
      rw [bne_iff_ne]
      intro he
      subst he
      exact hx hc)
  rw [splitAtChar, @takeWhile_stop_append (fun c => c != ch) ch hpc x y,
    @dropWhile_stop_append (fun c => c != ch) ch hpc x y, htx, hdx, List.nil_append]
  rfl

theorem urlunsplit_netloc_eq (s n p q f : List Char) (hs : s ≠ []) (hn : n ≠ []) :
    urlunsplit s n p q f =
      s ++ ':' :: '/' :: '/' :: (n ++ (insertSlash p ++ (optQ q ++ optF f))) := by
  by_cases hq : q = []
  · by_cases hf : f = []
    · simp [urlunsplit, insertSlash, optQ, optF, hq, hf, hs, hn, List.append_assoc]
    · simp [urlunsplit, insertSlash, optQ, optF, hq, hf, hs, hn, List.append_assoc]
  · by_cases hf : f = []
    · simp [urlunsplit, insertSlash, optQ, optF, hq, hf, hs, hn, List.append_assoc]
    · simp [urlunsplit, insertSlash, optQ, optF, hq, hf, hs, hn, List.append_assoc]

/-! ## The parse of a URL, unfolded -/

theorem urlsplit_eq (x d : List Char) :
    urlsplit x d =
      if bracketsOk (splitNetloc (splitScheme (sanitize (lstripC0 x))).2).1 then
        some ⟨(if (splitScheme (sanitize (lstripC0 x))).1 = [] then sanitize (stripC0 d)
               else (splitScheme (sanitize (lstripC0 x))).1),
              (splitNetloc (splitScheme (sanitize (lstripC0 x))).2).1,
              (splitAtChar '?' (splitAtChar '#' (splitNetloc (splitScheme (sanitize (lstripC0 x))).2).2).1).1,
              (splitAtChar '?' (splitAtChar '#' (splitNetloc (splitScheme (sanitize (lstripC0 x))).2).2).1).2,
              (splitAtChar '#' (splitNetloc (splitScheme (sanitize (lstripC0 x))).2).2).2⟩
      else none := rfl

theorem urlsplit_some {x d : List Char} {t : SplitUrl} (h : urlsplit x d = some t) :
    bracketsOk (splitNetloc (splitScheme (sanitize (lstripC0 x))).2).1 = true ∧
    t = ⟨(if (splitScheme (sanitize (lstripC0 x))).1 = [] then sanitize (stripC0 d)
          else (splitScheme (sanitize (lstripC0 x))).1),
         (splitNetloc (splitScheme (sanitize (lstripC0 x))).2).1,
         (splitAtChar '?' (splitAtChar '#' (splitNetloc (splitScheme (sanitize (lstripC0 x))).2).2).1).1,
         (splitAtChar '?' (splitAtChar '#' (splitNetloc (splitScheme (sanitize (lstripC0 x))).2).2).1).2,
         (splitAtChar '#' (splitNetloc (splitScheme (sanitize (lstripC0 x))).2).2).2⟩ := by
  rw [urlsplit_eq] at h
  by_cases hb : bracketsOk (splitNetloc (splitScheme (sanitize (lstripC0 x))).2).1 = true
  · rw [if_pos hb] at h
    exact ⟨hb, (Option.some.inj h).symm⟩
  · rw [if_neg hb] at h
    cases h

theorem urlparse_some {x d : List Char} {r : ParsedUrl} (h : urlparse x d = some r) :
    ∃ t, urlsplit x d = some t ∧
      r = ⟨t.scheme, t.netloc, (paramsSplit t.scheme t.path).1,
           (paramsSplit t.scheme t.path).2, t.query, t.fragment⟩ := by
  rw [urlparse] at h
  rcases Option.map_eq_some'.mp h with ⟨t, ht, hr⟩
  exact ⟨t, ht, hr.symm⟩

/-! ## The parse of an already-canonical URL -/

theorem takeWhile_delim_optQ (p q : List Char) :
    (p ++ optQ q).takeWhile (fun c => !(isNetlocDelim c)) =
      p.takeWhile (fun c => !(isNetlocDelim c)) := by
  by_cases hq : q = []
  · rw [hq, show optQ ([] : List Char) = [] from rfl, List.append_nil]
  · rw [optQ, if_pos hq]
    exact @takeWhile_stop_append (fun c => !(isNetlocDelim c)) '?' (by decide) p q

theorem dropWhile_delim_optQ (p q : List Char) :
    (p ++ optQ q).dropWhile (fun c => !(isNetlocDelim c)) =
      p.dropWhile (fun c => !(isNetlocDelim c)) ++ optQ q := by
  by_cases hq : q = []
  · rw [hq, show optQ ([] : List Char) = [] from rfl, List.append_nil, List.append_nil]
  · rw [optQ, if_pos hq]
    exact @dropWhile_stop_append (fun c => !(isNetlocDelim c)) '?' (by decide) p q

theorem urlsplit_cleanShape {s n p q : List Char} (d : List Char)
    (hs1 : s ≠ []) (hh : (s.headD 'x').isAlpha = true) (hsc : s.all isSchemeChar = true)
    (hlow : s.map Char.toLower = s)
    (hnd : ∀ c ∈ n, isNetlocDelim c = false)
    (hph : '#' ∉ p) (hpq : '?' ∉ p) (hqh : '#' ∉ q)
    (hcs : sanitize s = s) (hcn : sanitize n = n) (hcp : sanitize p = p)
    (hcq : sanitize q = q) :
    urlsplit (cleanShape s n p q) d =
      if bracketsOk (n ++ p.takeWhile (fun c => !(isNetlocDelim c))) then
        some ⟨s, n ++ p.takeWhile (fun c => !(isNetlocDelim c)),
              p.dropWhile (fun c => !(isNetlocDelim c)), q, []⟩
      else none := by
  have hsan : sanitize (cleanShape s n p q) = cleanShape s n p q :=
    sanitize_cleanShape hcs hcn hcp hcq
  have hls : lstripC0 (cleanShape s n p q) = cleanShape s n p q :=
    lstripC0_cleanShape n p q hs1 hh
  have hsch : splitScheme (sanitize (lstripC0 (cleanShape s n p q))) =
      (s, '/' :: '/' :: (n ++ (p ++ optQ q))) := by
    rw [hls, hsan, cleanShape_eq]
    exact splitScheme_explicit _ hs1 hh hsc hlow
  have hnall : n.all (fun c => !(isNetlocDelim c)) = true :=
    List.all_eq_true.mpr (fun c hc => by rw [hnd c hc]; rfl)
  have hpd_sub : ∀ c ∈ p.dropWhile (fun c => !(isNetlocDelim c)) ++ optQ q,
      c ≠ '#' := by
    intro c hc
    rcases List.mem_append.mp hc with h1 | h1
    · exact fun he => hph (he ▸ mem_of_mem_dropWhile h1)
    · by_cases hq : q = []
      · rw [hq] at h1
        cases h1
      · rw [optQ, if_pos hq] at h1
        rcases List.mem_cons.mp h1 with h2 | h2
        · intro he
          rw [he] at h2
          cases h2
        · exact fun he => hqh (he ▸ h2)
  have hfp : splitAtChar '#' (p.dropWhile (fun c => !(isNetlocDelim c)) ++ optQ q) =
      (p.dropWhile (fun c => !(isNetlocDelim c)) ++ optQ q, []) :=
    splitAtChar_no_mem (fun hm => hpd_sub '#' hm rfl)
  have hqd : '?' ∉ p.dropWhile (fun c => !(isNetlocDelim c)) := fun hm =>
    hpq (mem_of_mem_dropWhile hm)
  have hqp : splitAtChar '?' (p.dropWhile (fun c => !(isNetlocDelim c)) ++ optQ q) =
      (p.dropWhile (fun c => !(isNetlocDelim c)), q) := by
    by_cases hq : q = []
    · rw [hq, show optQ ([] : List Char) = [] from rfl, List.append_nil]
      exact splitAtChar_no_mem hqd
    · rw [optQ, if_pos hq]
      exact splitAtChar_found q hqd
  simp only [urlsplit_eq, hsch, splitNetloc_slashes]
  rw [takeWhile_app_all _ hnall, dropWhile_app_all _ hnall,
    takeWhile_delim_optQ p q, dropWhile_delim_optQ p q]
  simp only [hfp, hqp, if_neg hs1]

theorem urlparse_cleanShape {s n p q : List Char} (d : List Char) (inv : CanonInv s n p q) :
    urlparse (cleanShape s n p q) d =
      if bracketsOk (n ++ p.takeWhile (fun c => !(isNetlocDelim c))) then
        some ⟨s, n ++ p.takeWhile (fun c => !(isNetlocDelim c)),
              (paramsSplit s (p.dropWhile (fun c => !(isNetlocDelim c)))).1,
              (paramsSplit s (p.dropWhile (fun c => !(isNetlocDelim c)))).2, q, []⟩
      else none := by
  rw [urlparse, urlsplit_cleanShape d inv.scheme_ne inv.scheme_head inv.scheme_all
    inv.scheme_low inv.netloc_ok inv.path_hash inv.path_query inv.query_hash
    inv.clean_s inv.clean_n inv.clean_p inv.clean_q]
  by_cases hb : bracketsOk (n ++ p.takeWhile (fun c => !(isNetlocDelim c))) = true
  · rw [if_pos hb, if_pos hb, Option.map_some']
  · rw [if_neg hb, if_neg hb, Option.map_none']

theorem cleanShape_np_congr {n1 p1 n2 p2 : List Char} (s q : List Char)
    (h : n1 ++ p1 = n2 ++ p2) : cleanShape s n1 p1 q = cleanShape s n2 p2 q := by
  rw [cleanShape_eq, cleanShape_eq, show (n1 ++ (p1 ++ optQ q) : List Char) =
    (n1 ++ p1) ++ optQ q from (List.append_assoc n1 p1 (optQ q)).symm,
    show (n2 ++ (p2 ++ optQ q) : List Char) = (n2 ++ p2) ++ optQ q from
    (List.append_assoc n2 p2 (optQ q)).symm, h]

theorem semi_lastSegment_dropWhile {p : List Char} (hq : '?' ∉ p) (hh : '#' ∉ p)
    (hsemi : ';' ∉ lastSegment p) :
    ';' ∉ lastSegment (p.dropWhile (fun c => !(isNetlocDelim c))) := by
  by_cases hsl : '/' ∈ p
  · have hdw : '/' ∈ p.dropWhile (fun c => !(isNetlocDelim c)) := by
      have hsplit := List.takeWhile_append_dropWhile (fun c => !(isNetlocDelim c)) p
      have hm : '/' ∈ p.takeWhile (fun c => !(isNetlocDelim c)) ++
          p.dropWhile (fun c => !(isNetlocDelim c)) := by rw [hsplit]; exact hsl
      rcases List.mem_append.mp hm with h1 | h1
      · have := List.mem_takeWhile_imp h1
        rw [show (!(isNetlocDelim '/')) = false from by decide] at this
        cases this
      · exact h1
    have hsplit := List.takeWhile_append_dropWhile (fun c => !(isNetlocDelim c)) p
    rw [← hsplit, lastSegment_append_mem hdw] at hsemi
    exact hsemi
  · have hnil : p.dropWhile (fun c => !(isNetlocDelim c)) = [] :=
      List.dropWhile_eq_nil_iff.mpr (fun c hc => by
        have hd : isNetlocDelim c = false := by
          rw [isNetlocDelim]
          have h1 : (c == '/') = false := beq_eq_false_iff_ne.mpr (fun he => hsl (he ▸ hc))
          have h2 : (c == '?') = false := beq_eq_false_iff_ne.mpr (fun he => hq (he ▸ hc))
          have h3 : (c == '#') = false := beq_eq_false_iff_ne.mpr (fun he => hh (he ▸ hc))
          rw [h1, h2, h3]
          rfl
        rw [hd]
        rfl)
    rw [hnil]
    intro hmem
    rw [lastSegment] at hmem
    simp at hmem

theorem joinBranch_mk (s n p par q f u : List Char) :
    joinBranch ⟨s, n, p, par, q, f⟩ u =
      if s ≠ baseParsed.scheme ∨ s ∉ usesRelative then u
      else if s ∈ usesNetloc ∧ n ≠ [] then urlunparse s n p par q f
      else if p = [] ∧ par = [] then
        urlunparse s (if s ∈ usesNetloc then baseParsed.netloc else n) baseParsed.path
          baseParsed.params (if q = [] then baseParsed.query else q) f
      else
        urlunparse s (if s ∈ usesNetloc then baseParsed.netloc else n) (joinPath p)
          par q f := rfl

theorem canonChars_cleanShape {s n p q : List Char} (inv : CanonInv s n p q) {c2 : List Char}
    (h : canonChars (cleanShape s n p q) = some c2) : c2 = cleanShape s n p q := by
  have hne := cleanShape_ne_nil n p q inv.scheme_ne
  rw [canonChars, urljoin_base_unfold _ hne] at h
  by_cases hb : bracketsOk (n ++ p.takeWhile (fun c => !(isNetlocDelim c))) = true
  case neg =>
    rw [urlparse_cleanShape "https".data inv, if_neg hb] at h
    cases h
  case pos =>
    rw [urlparse_cleanShape "https".data inv, if_pos hb, Option.map_some',
      Option.some_bind] at h
    have hsp : paramsSplit s (p.dropWhile (fun c => !(isNetlocDelim c))) =
        (p.dropWhile (fun c => !(isNetlocDelim c)), []) :=
      paramsSplit_no_semi (fun hmem => semi_lastSegment_dropWhile inv.path_query
        inv.path_hash (inv.path_semi hmem))
    by_cases hs : s = "https".data
    · subst hs
      obtain ⟨hn, hp⟩ := inv.https_shape rfl
      have htw : p.takeWhile (fun c => !(isNetlocDelim c)) = [] := by
        rcases hp with hp | hp
        · rw [hp]
          rfl
        · cases p with
          | nil => rfl
          | cons a t =>
            have ha : a = '/' := by
              rw [List.head?] at hp
              exact Option.some.inj hp
            subst ha
            rw [List.takeWhile_cons, if_neg (by decide)]
      have hpd : p.dropWhile (fun c => !(isNetlocDelim c)) = p := by
        rcases hp with hp | hp
        · rw [hp]
          rfl
        · cases p with
          | nil => rfl
          | cons a t =>
            have ha : a = '/' := by
              rw [List.head?] at hp
              exact Option.some.inj hp
            subst ha
            rw [List.dropWhile_cons, if_neg (by decide)]
      have hsp0 : paramsSplit "https".data p = (p, []) :=
        paramsSplit_no_semi inv.path_semi
      simp only [htw, List.append_nil, hpd, hsp0] at h
      rw [joinBranch_mk, if_neg (by decide), if_pos ⟨by decide, hn⟩] at h
      have hins : insertSlash p = p := by
        rcases hp with hp | hp
        · rw [hp]
          rfl
        · rw [insertSlash, if_neg (fun hc => hc.2 hp)]
      rw [urlunparse, if_neg (show ¬(([] : List Char) ≠ []) from by simp),
        urlunsplit_netloc_eq "https".data n p q [] (by decide) hn, hins,
        show optF ([] : List Char) = [] from rfl, List.append_nil, ← cleanShape_eq] at h
      rw [cleanOf, urlparse_cleanShape [] inv, if_pos hb, Option.map_some'] at h
      have hc2 := (Option.some.inj h).symm
      rw [hc2]
      show cleanShape "https".data (n ++ p.takeWhile (fun c => !(isNetlocDelim c)))
          (paramsSplit "https".data (p.dropWhile (fun c => !(isNetlocDelim c)))).1 q = _
      simp only [htw, List.append_nil, hpd, hsp0]
    · rw [joinBranch_mk,
        if_pos (Or.inl (show s ≠ baseParsed.scheme from hs))] at h
      rw [cleanOf, urlparse_cleanShape [] inv, if_pos hb, Option.map_some'] at h
      have hc2 := (Option.some.inj h).symm
      rw [hc2]
      show cleanShape s (n ++ p.takeWhile (fun c => !(isNetlocDelim c)))
          (paramsSplit s (p.dropWhile (fun c => !(isNetlocDelim c)))).1 q = _
      simp only [hsp]
      refine cleanShape_np_congr s q ?_
      rw [List.append_assoc, List.takeWhile_append_dropWhile]

/-! ## Properties of every successful parse -/

theorem toLower_cases (c : Char) :
    c.toLower = c ∨ (97 ≤ c.toLower.toNat ∧ c.toLower.toNat ≤ 122) := by
  by_cases h : 65 ≤ c.toNat ∧ c.toNat ≤ 90
  · right
    rw [toLower_toNat, if_pos h]
    omega
  · left
    rw [toLower_eq, if_neg h]

theorem toLower_not_unsafe {c : Char} (h : (!unsafeUrlChars.contains c) = true) :
    (!unsafeUrlChars.contains c.toLower) = true := by
  rcases toLower_cases c with he | hr
  · rw [he]
    exact h
  · cases hc : unsafeUrlChars.contains c.toLower with
    | false => rfl
    | true =>
      exfalso
      have hm : c.toLower ∈ unsafeUrlChars := contains_true.mp hc
      have h9 : c.toLower.toNat = 9 ∨ c.toLower.toNat = 13 ∨ c.toLower.toNat = 10 := by
        rcases List.mem_cons.mp hm with he | hm2
        · left
          rw [he]
          rfl
        rcases List.mem_cons.mp hm2 with he | hm3
        · right
          left
          rw [he]
          rfl
        rcases List.mem_cons.mp hm3 with he | hm4
        · right
          right
          rw [he]
          rfl
        · cases hm4
      omega

theorem splitScheme_valid {l : List Char} (h : (splitScheme l).1 ≠ []) :
    ((splitScheme l).1.headD 'x').isAlpha = true ∧
    (splitScheme l).1.all isSchemeChar = true ∧
    (splitScheme l).1.map Char.toLower = (splitScheme l).1 := by
  by_cases hc : (l.dropWhile (· != ':') ≠ [] ∧ l.takeWhile (· != ':') ≠ [] ∧
      ((l.takeWhile (· != ':')).headD 'x').isAlpha ∧ (l.takeWhile (· != ':')).all isSchemeChar)
  · have h1 : (splitScheme l).1 = (l.takeWhile (· != ':')).map Char.toLower := by
      rw [splitScheme, if_pos hc]
    obtain ⟨-, ht, hh, hall⟩ := hc
    refine ⟨?_, ?_, ?_⟩
    · rw [h1]
      cases hx : l.takeWhile (· != ':') with
      | nil => exact absurd hx ht
      | cons a tl =>
        rw [hx] at hh
        exact isAlpha_toLower hh
    · rw [h1, List.all_map]
      refine List.all_eq_true.mpr (fun c hcm => ?_)
      exact isSchemeChar_toLower (List.all_eq_true.mp hall c hcm)
    · rw [h1, List.map_map]
      exact List.map_congr_left (fun a _ => toLower_toLower a)
  · exfalso
    apply h
    rw [splitScheme, if_neg hc]

theorem splitScheme_fst_clean {l : List Char} (hl : sanitize l = l) :
    sanitize ((splitScheme l).1) = (splitScheme l).1 := by
  by_cases hc : (l.dropWhile (· != ':') ≠ [] ∧ l.takeWhile (· != ':') ≠ [] ∧
      ((l.takeWhile (· != ':')).headD 'x').isAlpha ∧ (l.takeWhile (· != ':')).all isSchemeChar)
  · have h1 : (splitScheme l).1 = (l.takeWhile (· != ':')).map Char.toLower := by
      rw [splitScheme, if_pos hc]
    rw [h1]
    refine sanitize_eq_self (fun c hcm => ?_)
    rcases List.mem_map.mp hcm with ⟨a, ha, hac⟩
    have hal : a ∈ l := mem_of_mem_takeWhile ha
    have : (!unsafeUrlChars.contains a) = true := by
      rw [← hl] at hal
      exact (mem_sanitize hal).2
    rw [← hac]
    exact toLower_not_unsafe this
  · rw [splitScheme, if_neg hc]
    rfl

theorem mem_splitScheme_snd {l : List Char} {c : Char} (h : c ∈ (splitScheme l).2) :
    c ∈ l := by
  by_cases hc : (l.dropWhile (· != ':') ≠ [] ∧ l.takeWhile (· != ':') ≠ [] ∧
      ((l.takeWhile (· != ':')).headD 'x').isAlpha ∧ (l.takeWhile (· != ':')).all isSchemeChar)
  · rw [splitScheme, if_pos hc] at h
    exact mem_of_mem_dropWhile (mem_of_mem_tail h)
  · rw [splitScheme, if_neg hc] at h
    exact h

theorem mem_splitNetloc_fst {l : List Char} {c : Char} (h : c ∈ (splitNetloc l).1) :
    c ∈ l := by
  by_cases h2 : l.take 2 = ['/', '/']
  · rw [splitNetloc, if_pos h2] at h
    exact (List.drop_sublist 2 l).mem (mem_of_mem_takeWhile h)
  · rw [splitNetloc, if_neg h2] at h
    cases h

theorem mem_splitNetloc_snd {l : List Char} {c : Char} (h : c ∈ (splitNetloc l).2) :
    c ∈ l := by
  by_cases h2 : l.take 2 = ['/', '/']
  · rw [splitNetloc, if_pos h2] at h
    exact (List.drop_sublist 2 l).mem (mem_of_mem_dropWhile h)
  · rw [splitNetloc, if_neg h2] at h
    exact h

theorem splitNetloc_fst_all (l : List Char) :
    ∀ c ∈ (splitNetloc l).1, isNetlocDelim c = false := by
  intro c h
  by_cases h2 : l.take 2 = ['/', '/']
  · rw [splitNetloc, if_pos h2] at h
    have := List.mem_takeWhile_imp h
    cases hd : isNetlocDelim c with
    | false => rfl
    | true => rw [hd] at this; cases this
  · rw [splitNetloc, if_neg h2] at h
    cases h

theorem splitAtChar_fst (ch : Char) (l : List Char) :
    (splitAtChar ch l).1 = l.takeWhile (· != ch) := rfl

theorem splitAtChar_snd (ch : Char) (l : List Char) :
    (splitAtChar ch l).2 = (l.dropWhile (· != ch)).tail := rfl

theorem splitAtChar_fst_ne {ch : Char} {l : List Char} {c : Char}
    (h : c ∈ (splitAtChar ch l).1) : c ≠ ch ∧ c ∈ l := by
  rw [splitAtChar_fst] at h
  refine ⟨?_, mem_of_mem_takeWhile h⟩
  have := List.mem_takeWhile_imp h
  rwa [bne_iff_ne] at this

theorem mem_splitAtChar_snd {ch : Char} {l : List Char} {c : Char}
    (h : c ∈ (splitAtChar ch l).2) : c ∈ l := by
  rw [splitAtChar_snd] at h
  exact mem_of_mem_dropWhile (mem_of_mem_tail h)

theorem clean_of_subset {x : List Char} {y : List Char}
    (hsub : ∀ c ∈ y, c ∈ sanitize x) : sanitize y = y :=
  sanitize_eq_self (fun c hc => (mem_sanitize (hsub c hc)).2)

theorem urlparse_props {x d : List Char} {r : ParsedUrl} (h : urlparse x d = some r) :
    (∀ c ∈ r.netloc, isNetlocDelim c = false) ∧
    '#' ∉ r.path ∧ '?' ∉ r.path ∧ '#' ∉ r.query ∧
    (r.scheme ∈ usesParams → ';' ∉ lastSegment r.path) ∧
    sanitize r.netloc = r.netloc ∧ sanitize r.path = r.path ∧
    sanitize r.params = r.params ∧ sanitize r.query = r.query ∧
    sanitize r.fragment = r.fragment ∧ sanitize r.scheme = r.scheme := by
  obtain ⟨t, ht, hr⟩ := urlparse_some h
  obtain ⟨hb, hteq⟩ := urlsplit_some ht
  subst hteq
  subst hr
  refine ⟨?_, ?_, ?_, ?_, ?_, ?_, ?_, ?_, ?_, ?_, ?_⟩
  · exact splitNetloc_fst_all _
  · intro hm
    have h1 := mem_paramsSplit_path hm
    have h2 := (splitAtChar_fst_ne h1).2
    exact (splitAtChar_fst_ne h2).1 rfl
  · intro hm
    exact (splitAtChar_fst_ne (mem_paramsSplit_path hm)).1 rfl
  · intro hm
    exact (splitAtChar_fst_ne (mem_splitAtChar_snd hm)).1 rfl
  · exact fun hs => paramsSplit_semi hs
  · exact clean_of_subset (fun c hc =>
      mem_splitScheme_snd (mem_splitNetloc_fst hc))
  · exact clean_of_subset (fun c hc =>
      mem_splitScheme_snd (mem_splitNetloc_snd
        (splitAtChar_fst_ne ((splitAtChar_fst_ne (mem_paramsSplit_path hc)).2)).2))
  · exact clean_of_subset (fun c hc =>
      mem_splitScheme_snd (mem_splitNetloc_snd
        (splitAtChar_fst_ne ((splitAtChar_fst_ne (mem_paramsSplit_params hc)).2)).2))
  · exact clean_of_subset (fun c hc =>
      mem_splitScheme_snd (mem_splitNetloc_snd
        (splitAtChar_fst_ne (mem_splitAtChar_snd hc)).2))
  · exact clean_of_subset (fun c hc =>
      mem_splitScheme_snd (mem_splitNetloc_snd (mem_splitAtChar_snd hc)))
  · by_cases hss : (splitScheme (sanitize (lstripC0 x))).1 = []
    · show sanitize (if (splitScheme (sanitize (lstripC0 x))).1 = [] then sanitize (stripC0 d)
        else (splitScheme (sanitize (lstripC0 x))).1) = _
      rw [if_pos hss]
      exact sanitize_idem (stripC0 d)
    · show sanitize (if (splitScheme (sanitize (lstripC0 x))).1 = [] then sanitize (stripC0 d)
        else (splitScheme (sanitize (lstripC0 x))).1) = _
      rw [if_neg hss]
      exact splitScheme_fst_clean (sanitize_idem (lstripC0 x))

theorem urlparse_scheme_cases {x d : List Char} {r : ParsedUrl} (h : urlparse x d = some r) :
    ((splitScheme (sanitize (lstripC0 x))).1 = [] ∧ r.scheme = sanitize (stripC0 d)) ∨
    ((splitScheme (sanitize (lstripC0 x))).1 ≠ [] ∧ r.scheme = (splitScheme (sanitize (lstripC0 x))).1) := by
  obtain ⟨t, ht, hr⟩ := urlparse_some h
  obtain ⟨hb, hteq⟩ := urlsplit_some ht
  subst hteq
  subst hr
  by_cases hss : (splitScheme (sanitize (lstripC0 x))).1 = []
  · refine Or.inl ⟨hss, ?_⟩
    show (if (splitScheme (sanitize (lstripC0 x))).1 = [] then sanitize (stripC0 d)
      else (splitScheme (sanitize (lstripC0 x))).1) = _
    rw [if_pos hss]
  · refine Or.inr ⟨hss, ?_⟩
    show (if (splitScheme (sanitize (lstripC0 x))).1 = [] then sanitize (stripC0 d)
      else (splitScheme (sanitize (lstripC0 x))).1) = _
    rw [if_neg hss]

theorem parsed_path_shape (sch l : List Char) :
    (paramsSplit sch ((splitAtChar '?' ((splitAtChar '#'
        (l.dropWhile (fun c => !(isNetlocDelim c)))).1)).1)).1 = [] ∨
    (paramsSplit sch ((splitAtChar '?' ((splitAtChar '#'
        (l.dropWhile (fun c => !(isNetlocDelim c)))).1)).1)).1.head? = some '/' := by
  have hnilcase : (paramsSplit sch ([] : List Char)).1 = [] := by
    rw [paramsSplit, if_neg (fun hg => absurd hg.2 (by decide))]
  cases hd : l.dropWhile (fun c => !(isNetlocDelim c)) with
  | nil =>
    refine Or.inl ?_
    show (paramsSplit sch ([] : List Char)).1 = []
    exact hnilcase
  | cons a tl =>
    have ha : (!(isNetlocDelim a)) = false := dropWhile_head_false hd
    have ha2 : isNetlocDelim a = true := by
      cases h2 : isNetlocDelim a with
      | true => rfl
      | false =>
        rw [h2] at ha
        cases ha
    have h3 : a = '/' ∨ a = '?' ∨ a = '#' := by
      rw [isNetlocDelim] at ha2
      have := ha2
      simp at this
      tauto
    rcases h3 with h3 | h3 | h3
    · subst h3
      have hpath : ((splitAtChar '?' ((splitAtChar '#' ('/' :: tl)).1)).1 : List Char) =
          '/' :: ((tl.takeWhile (· != '#')).takeWhile (· != '?')) := rfl
      rw [hpath]
      rcases paramsSplit_head sch ('/' :: ((tl.takeWhile (· != '#')).takeWhile (· != '?')))
        with hsp | hsp
      · exact Or.inl hsp
      · exact Or.inr (hsp.trans rfl)
    · subst h3
      refine Or.inl ?_
      show (paramsSplit sch ([] : List Char)).1 = []
      exact hnilcase
    · subst h3
      refine Or.inl ?_
      show (paramsSplit sch ([] : List Char)).1 = []
      exact hnilcase

theorem parse_unsplit_https {N P Q F : List Char} {r2 : ParsedUrl}
    (hn1 : N ≠ []) (hn2 : ∀ c ∈ N, isNetlocDelim c = false)
    (hcn : sanitize N = N) (hcp : sanitize P = P) (hcq : sanitize Q = Q)
    (hcf : sanitize F = F)
    (h : urlparse (urlunsplit "https".data N P Q F) [] = some r2) :
    r2.scheme = "https".data ∧ r2.netloc ≠ [] ∧
      (r2.path = [] ∨ r2.path.head? = some '/') := by
  rw [urlunsplit_netloc_eq "https".data N P Q F (by decide) hn1] at h
  have hrest : sanitize (insertSlash P ++ (optQ Q ++ optF F)) =
      insertSlash P ++ (optQ Q ++ optF F) := by
    rw [sanitize_append, sanitize_append, sanitize_insertSlash hcp, sanitize_optQ hcq,
      sanitize_optF hcf]
  have hsanu : sanitize ("https".data ++ ':' :: '/' :: '/' ::
      (N ++ (insertSlash P ++ (optQ Q ++ optF F)))) =
      "https".data ++ ':' :: '/' :: '/' :: (N ++ (insertSlash P ++ (optQ Q ++ optF F))) := by
    rw [sanitize_append, show sanitize "https".data = "https".data from by decide,
      sanitize_cons_keep (by decide), sanitize_cons_keep (by decide),
      sanitize_cons_keep (by decide), sanitize_append, hcn, hrest]
  have hls : lstripC0 ("https".data ++ ':' :: '/' :: '/' ::
      (N ++ (insertSlash P ++ (optQ Q ++ optF F)))) =
      "https".data ++ ':' :: '/' :: '/' :: (N ++ (insertSlash P ++ (optQ Q ++ optF F))) :=
    lstripC0_cons (by decide)
  have hsch : splitScheme (sanitize (lstripC0 ("https".data ++ ':' :: '/' :: '/' ::
      (N ++ (insertSlash P ++ (optQ Q ++ optF F)))))) =
      ("https".data, '/' :: '/' :: (N ++ (insertSlash P ++ (optQ Q ++ optF F)))) := by
    rw [hls, hsanu]
    exact splitScheme_explicit _ (by decide) (by decide) (by decide) (by decide)
  have hNall : N.all (fun c => !(isNetlocDelim c)) = true :=
    List.all_eq_true.mpr (fun c hc => by rw [hn2 c hc]; rfl)
  obtain ⟨t, ht, hr⟩ := urlparse_some h
  obtain ⟨hb, hteq⟩ := urlsplit_some ht
  simp only [hsch, splitNetloc_slashes] at hteq
  rw [takeWhile_app_all _ hNall, dropWhile_app_all _ hNall,
    if_neg (show ¬(("https".data : List Char) = []) from by decide)] at hteq
  subst hteq
  subst hr
  refine ⟨rfl, ?_, ?_⟩
  · show (N ++ (insertSlash P ++ (optQ Q ++ optF F)).takeWhile
      (fun c => !(isNetlocDelim c)) : List Char) ≠ []
    cases N with
    | nil => exact absurd rfl hn1
    | cons a tl => simp
  · exact parsed_path_shape "https".data (insertSlash P ++ (optQ Q ++ optF F))

/-! ## Characters of the dot-segment resolution -/

theorem mem_splitSlash_chars {l : List Char} {s : List Char} (h : s ∈ splitSlash l)
    {c : Char} (hc : c ∈ s) : c ∈ l := by
  induction l using splitSlash.induct generalizing s with
  | case1 =>
    rw [splitSlash.eq_1] at h
    have he := List.mem_singleton.mp h
    subst he
    cases hc
  | case2 rest ih =>
    rw [splitSlash.eq_2] at h
    rcases List.mem_cons.mp h with he | hm
    · subst he
      cases hc
    · exact List.mem_cons_of_mem _ (ih hm hc)
  | case3 a rest hne heq ih =>
    rw [splitSlash.eq_3 a rest hne, heq] at h
    have h2 : s ∈ [[a]] := h
    have he := List.mem_singleton.mp h2
    subst he
    have he2 := List.mem_singleton.mp hc
    subst he2
    exact List.mem_cons_self _ _
  | case4 a rest hne s1 ss1 heq ih =>
    rw [splitSlash.eq_3 a rest hne, heq] at h
    have h2 : s ∈ (a :: s1) :: ss1 := h
    rcases List.mem_cons.mp h2 with he | hm
    · subst he
      rcases List.mem_cons.mp hc with he2 | hm2
      · subst he2
        exact List.mem_cons_self _ _
      · refine List.mem_cons_of_mem _ (ih ?_ hm2)
        rw [heq]
        exact List.mem_cons_self _ _
    · refine List.mem_cons_of_mem _ (ih ?_ hc)
      rw [heq]
      exact List.mem_cons_of_mem _ hm

theorem joinSlash_chars {ss : List (List Char)} {c : Char} (h : c ∈ joinSlash ss) :
    c = '/' ∨ ∃ s ∈ ss, c ∈ s := by
  induction ss with
  | nil =>
    rw [joinSlash] at h
    cases h
  | cons s1 rest ih =>
    cases rest with
    | nil =>
      rw [joinSlash] at h
      exact Or.inr ⟨s1, List.mem_singleton.mpr rfl, h⟩
    | cons s2 rest2 =>
      rw [show joinSlash (s1 :: s2 :: rest2) = s1 ++ '/' :: joinSlash (s2 :: rest2) from
        rfl] at h
      rcases List.mem_append.mp h with hm | hm
      · exact Or.inr ⟨s1, List.mem_cons_self _ _, hm⟩
      · rcases List.mem_cons.mp hm with he | hm2
        · exact Or.inl he
        · rcases ih hm2 with he | ⟨s3, hs3, hcs3⟩
          · exact Or.inl he
          · exact Or.inr ⟨s3, List.mem_cons_of_mem _ hs3, hcs3⟩

theorem foldl_dotStep_mem {segs : List (List Char)} :
    ∀ {acc : List (List Char)} {s : List Char}, s ∈ segs.foldl dotStep acc →
      s ∈ acc ∨ s ∈ segs := by
  induction segs with
  | nil =>
    intro acc s h
    exact Or.inl h
  | cons a rest ih =>
    intro acc s h
    rw [List.foldl_cons] at h
    rcases ih h with hm | hm
    · rw [dotStep] at hm
      by_cases h1 : a = ['.', '.']
      · rw [if_pos h1] at hm
        exact Or.inl ((List.dropLast_sublist acc).mem hm)
      · rw [if_neg h1] at hm
        by_cases h2 : a = ['.']
        · rw [if_pos h2] at hm
          exact Or.inl hm
        · rw [if_neg h2] at hm
          rcases List.mem_append.mp hm with hm2 | hm2
          · exact Or.inl hm2
          · have he := List.mem_singleton.mp hm2
            subst he
            exact Or.inr (List.mem_cons_self _ _)
    · exact Or.inr (List.mem_cons_of_mem _ hm)

theorem mem_filterMiddle {l : List (List Char)} {s : List Char}
    (h : s ∈ filterMiddle l) : s ∈ l := by
  cases l with
  | nil =>
    rw [filterMiddle] at h
    cases h
  | cons a rest =>
    cases rest with
    | nil =>
      rw [filterMiddle] at h
      exact h
    | cons b rest2 =>
      rw [show filterMiddle (a :: b :: rest2) =
        a :: (((b :: rest2).dropLast.filter (fun s => !s.isEmpty)) ++
          [(b :: rest2).getLastD []]) from rfl] at h
      rcases List.mem_cons.mp h with he | hm
      · subst he
        exact List.mem_cons_self _ _
      · rcases List.mem_append.mp hm with hm2 | hm2
        · exact List.mem_cons_of_mem _
            ((List.dropLast_sublist (b :: rest2)).mem (List.mem_filter.mp hm2).1)
        · have he := List.mem_singleton.mp hm2
          subst he
          exact List.mem_cons_of_mem _ (getLastD_mem _ (List.cons_ne_nil _ _))

theorem mem_joinPath {p : List Char} {c : Char} (h : c ∈ joinPath p) : c = '/' ∨ c ∈ p := by
  simp only [joinPath] at h
  rw [show splitSlash baseParsed.path = [[]] from rfl] at h
  rw [show (if (([[]] : List (List Char)).getLastD [] ≠ []) then
      ([[]] : List (List Char)).dropLast else ([[]] : List (List Char))) =
      ([[]] : List (List Char)) from by decide] at h
  have hseg_chars : ∀ s ∈ (if p.head? = some '/' then splitSlash p
      else filterMiddle ([[]] ++ splitSlash p)), ∀ c2 ∈ s, c2 = '/' ∨ c2 ∈ p := by
    intro s hs c2 hc2
    by_cases hph : p.head? = some '/'
    · rw [if_pos hph] at hs
      exact Or.inr (mem_splitSlash_chars hs hc2)
    · rw [if_neg hph] at hs
      have hm := mem_filterMiddle hs
      rcases List.mem_append.mp hm with hm2 | hm2
      · have he := List.mem_singleton.mp hm2
        subst he
        cases hc2
      · exact Or.inr (mem_splitSlash_chars hm2 hc2)
  by_cases hrp : joinSlash (if (if p.head? = some '/' then splitSlash p
      else filterMiddle ([[]] ++ splitSlash p)).getLastD [] = ['.', '.'] ∨
      (if p.head? = some '/' then splitSlash p
      else filterMiddle ([[]] ++ splitSlash p)).getLastD [] = ['.'] then
      (if p.head? = some '/' then splitSlash p
      else filterMiddle ([[]] ++ splitSlash p)).foldl dotStep [] ++ [[]]
      else (if p.head? = some '/' then splitSlash p
      else filterMiddle ([[]] ++ splitSlash p)).foldl dotStep []) = []
  · rw [if_pos hrp] at h
    exact Or.inl (List.mem_singleton.mp h)
  · rw [if_neg hrp] at h
    rcases joinSlash_chars h with he | ⟨s, hs, hcs⟩
    · exact Or.inl he
    · have hs2 : s ∈ (if p.head? = some '/' then splitSlash p
          else filterMiddle ([[]] ++ splitSlash p)).foldl dotStep [] ∨ s = [] := by
        by_cases hlast : ((if p.head? = some '/' then splitSlash p
            else filterMiddle ([[]] ++ splitSlash p)).getLastD [] = ['.', '.'] ∨
            (if p.head? = some '/' then splitSlash p
            else filterMiddle ([[]] ++ splitSlash p)).getLastD [] = ['.'])
        · rw [if_pos hlast] at hs
          rcases List.mem_append.mp hs with hm | hm
          · exact Or.inl hm
          · exact Or.inr (List.mem_singleton.mp hm)
        · rw [if_neg hlast] at hs
          exact Or.inl hs
      rcases hs2 with hs2 | hs2
      · rcases foldl_dotStep_mem hs2 with hm | hm
        · cases hm
        · exact hseg_chars s hm c hcs
      · subst hs2
        cases hcs

/-! ## Shape of every canonicalized link -/

theorem sanitize_paramsPath {p par : List Char} (hp : sanitize p = p)
    (hpar : sanitize par = par) :
    sanitize (paramsPath p par) = paramsPath p par := by
  rw [paramsPath]
  by_cases h : par = []
  · rw [if_neg (fun hc => hc h)]
    exact hp
  · rw [if_pos h, sanitize_append, hp, sanitize_cons_keep (by decide), hpar]

theorem joinBranch_parse_facts {u : List Char} {r r2 : ParsedUrl}
    (hru : urlparse u "https".data = some r)
    (hr2 : urlparse (joinBranch r u) [] = some r2) :
    r2.scheme ≠ [] ∧ (r2.scheme.headD 'x').isAlpha = true ∧
    r2.scheme.all isSchemeChar = true ∧ r2.scheme.map Char.toLower = r2.scheme ∧
    (r2.scheme = "https".data → r2.netloc ≠ [] ∧
      (r2.path = [] ∨ r2.path.head? = some '/')) := by
  obtain ⟨hnet1, hph1, hpq1, hqh1, hsemi1, hcln1, hclp1, hclpar1, hclq1, hclf1, hcls1⟩ :=
    urlparse_props hru
  rcases r with ⟨s1, n1, p1, par1, q1, f1⟩
  by_cases hM : (s1 ≠ baseParsed.scheme ∨ s1 ∉ usesRelative)
  · have hj : joinBranch ⟨s1, n1, p1, par1, q1, f1⟩ u = u := by
      rw [joinBranch_mk, if_pos hM]
    rw [hj] at hr2
    rcases urlparse_scheme_cases hru with ⟨hss, hsch⟩ | ⟨hss, hsch⟩
    · exfalso
      have hs1v : s1 = "https".data := by
        have h1 : (⟨s1, n1, p1, par1, q1, f1⟩ : ParsedUrl).scheme =
            sanitize (stripC0 "https".data) := hsch
        rw [show sanitize (stripC0 "https".data) = "https".data from by decide] at h1
        exact h1
      rcases hM with hM | hM
      · exact hM (by rw [hs1v]; rfl)
      · rw [hs1v] at hM
        exact hM (by decide)
    · rcases urlparse_scheme_cases hr2 with ⟨hss2, hsch2⟩ | ⟨hss2, hsch2⟩
      · exact absurd hss2 hss
      · have hv := splitScheme_valid hss2
        refine ⟨by rw [hsch2]; exact hss2, by rw [hsch2]; exact hv.1,
          by rw [hsch2]; exact hv.2.1, by rw [hsch2]; exact hv.2.2, ?_⟩
        intro hhtt
        exfalso
        have hs1v : s1 = "https".data := by
          have h1 : (⟨s1, n1, p1, par1, q1, f1⟩ : ParsedUrl).scheme =
              (splitScheme (sanitize (lstripC0 u))).1 := hsch
          rw [← hsch2, hhtt] at h1
          exact h1
        rcases hM with hM | hM
        · exact hM (by rw [hs1v]; rfl)
        · rw [hs1v] at hM
          exact hM (by decide)
  · obtain ⟨h1, h2⟩ := not_or.mp hM
    have hs1v : s1 = "https".data := not_not.mp h1
    subst hs1v
    by_cases hN : (("https".data : List Char) ∈ usesNetloc ∧ n1 ≠ [])
    · have hj : joinBranch ⟨"https".data, n1, p1, par1, q1, f1⟩ u =
          urlunsplit "https".data n1 (paramsPath p1 par1) q1 f1 := by
        rw [joinBranch_mk, if_neg hM, if_pos hN]
        rfl
      rw [hj] at hr2
      have hfacts := parse_unsplit_https hN.2 hnet1 hcln1
        (sanitize_paramsPath hclp1 hclpar1) hclq1 hclf1 hr2
      exact ⟨by rw [hfacts.1]; decide, by rw [hfacts.1]; decide, by rw [hfacts.1]; decide,
        by rw [hfacts.1]; decide, fun _ => ⟨hfacts.2.1, hfacts.2.2⟩⟩
    · by_cases hPE : (p1 = [] ∧ par1 = [])
      · have hj : joinBranch ⟨"https".data, n1, p1, par1, q1, f1⟩ u =
            urlunsplit "https".data baseParsed.netloc
              (paramsPath baseParsed.path baseParsed.params)
              (if q1 = [] then baseParsed.query else q1) f1 := by
          rw [joinBranch_mk, if_neg hM, if_neg hN, if_pos hPE,
            if_pos (show ("https".data : List Char) ∈ usesNetloc from by decide)]
          rfl
        rw [hj] at hr2
        have hq2 : sanitize (if q1 = [] then baseParsed.query else q1) =
            (if q1 = [] then baseParsed.query else q1) := by
          by_cases hq1 : q1 = []
          · rw [if_pos hq1]
            decide
          · rw [if_neg hq1]
            exact hclq1
        have hfacts := parse_unsplit_https (by decide) (by decide) (by decide)
          (sanitize_paramsPath (by decide) (by decide)) hq2 hclf1 hr2
        exact ⟨by rw [hfacts.1]; decide, by rw [hfacts.1]; decide, by rw [hfacts.1]; decide,
          by rw [hfacts.1]; decide, fun _ => ⟨hfacts.2.1, hfacts.2.2⟩⟩
      · have hj : joinBranch ⟨"https".data, n1, p1, par1, q1, f1⟩ u =
            urlunsplit "https".data baseParsed.netloc (paramsPath (joinPath p1) par1)
              q1 f1 := by
          rw [joinBranch_mk, if_neg hM, if_neg hN, if_neg hPE,
            if_pos (show ("https".data : List Char) ∈ usesNetloc from by decide)]
          rfl
        rw [hj] at hr2
        have hjp_clean : sanitize (joinPath p1) = joinPath p1 :=
          sanitize_eq_self (fun c hc => by
            rcases mem_joinPath hc with he | hm
            · subst he
              decide
            · rw [show (p1 : List Char) =
                (⟨"https".data, n1, p1, par1, q1, f1⟩ : ParsedUrl).path from rfl,
                ← hclp1] at hm
              exact (mem_sanitize hm).2)
        have hfacts := parse_unsplit_https (by decide) (by decide) (by decide)
          (sanitize_paramsPath hjp_clean hclpar1) hclq1 hclf1 hr2
        exact ⟨by rw [hfacts.1]; decide, by rw [hfacts.1]; decide, by rw [hfacts.1]; decide,
          by rw [hfacts.1]; decide, fun _ => ⟨hfacts.2.1, hfacts.2.2⟩⟩

theorem canonChars_shape {u c : List Char} (h : canonChars u = some c) :
    ∃ s n p q, c = cleanShape s n p q ∧ CanonInv s n p q := by
  by_cases hu : u = []
  · subst hu
    have hval : canonChars [] = some "https://zh-hk.guitarians.com".data := by decide
    rw [hval] at h
    have hc := (Option.some.inj h).symm
    refine ⟨"https".data, "zh-hk.guitarians.com".data, [], [], ?_, ?_⟩
    · rw [hc]
      decide
    · exact ⟨by decide, by decide, by decide, by decide, by decide, by decide, by decide,
        by decide, by decide, by decide, by decide, by decide, by decide, by decide⟩
  · rw [canonChars, urljoin_base_unfold u hu] at h
    cases hru : urlparse u "https".data with
    | none =>
      rw [hru] at h
      cases h
    | some r =>
      rw [hru, Option.map_some', Option.some_bind, cleanOf] at h
      cases hr2 : urlparse (joinBranch r u) [] with
      | none =>
        rw [hr2] at h
        cases h
      | some r2 =>
        rw [hr2, Option.map_some'] at h
        have hc : c = cleanParsed r2 := (Option.some.inj h).symm
        obtain ⟨hnet, hph2, hpq2, hqh2, hsemi2, hcln2, hclp2, hclpar2, hclq2, hclf2,
          hcls2⟩ := urlparse_props hr2
        obtain ⟨hs_ne, hs_head, hs_all, hs_low, hshape⟩ := joinBranch_parse_facts hru hr2
        exact ⟨r2.scheme, r2.netloc, r2.path, r2.query, hc,
          hs_ne, hs_head, hs_all, hs_low, hnet, hph2, hpq2, hqh2, hsemi2,
          hcls2, hcln2, hclp2, hclq2, hshape⟩

/-! ## Idempotence of canonicalization -/

theorem canonChars_idem {u c c2 : List Char} (h1 : canonChars u = some c)
    (h2 : canonChars c = some c2) : c2 = c := by
  obtain ⟨s, n, p, q, rfl, inv⟩ := canonChars_shape h1
  exact canonChars_cleanShape inv h2

theorem canonicalize_idem {u c c2 : String} (h1 : canonicalize u = some c)
    (h2 : canonicalize c = some c2) : c2 = c := by
  rw [canonicalize] at h1 h2
  rcases Option.map_eq_some'.mp h1 with ⟨l, hl, rfl⟩
  rcases Option.map_eq_some'.mp h2 with ⟨l2, hl2, rfl⟩
  have hl2' : canonChars l = some l2 := hl2
  rw [canonChars_idem hl hl2']

theorem canonicalize_hash (u x : String) :
    canonicalize (u ++ "#" ++ x) = canonicalize u := by
  rw [canonicalize, canonicalize]
  have hdata : (u ++ "#" ++ x).data = u.data ++ '#' :: x.data := by
    rw [String.data_append, String.data_append, List.append_assoc]
    rfl
  rw [hdata, canonChars_hash]

/-! ## Claim C3 -/

/-- Counterexample for C3 as stated: canonicalization is not idempotent on every
canonical Chord Link.  The href `ftp:a[/chord/x` passes the harvester's filter
and canonicalizes to `ftp://a[/chord/x`; re-canonicalizing that output makes
`urlparse` read `a[` as a netloc with an unbalanced bracket and raise
`ValueError` (modelled as `none`), so no string — let alone the same one — is
produced. -/
theorem c3_counterexample :
    isChordHref "ftp:a[/chord/x" = true ∧
    canonicalize "ftp:a[/chord/x" = some "ftp://a[/chord/x" ∧
    canonicalize "ftp://a[/chord/x" = none := by decide

/-- Claim C3 (amended): whenever re-canonicalizing a canonicalization output
succeeds at all, it returns the same string (idempotence on the domain of
definition), and canonicalization is fragment-invariant: any `#x` suffix never
changes the result. -/
theorem c3_amended :
    (∀ u c c2 : String, canonicalize u = some c → canonicalize c = some c2 → c2 = c) ∧
    (∀ u x : String, canonicalize (u ++ "#" ++ x) = canonicalize u) :=
  ⟨fun _ _ _ h1 h2 => canonicalize_idem h1 h2, canonicalize_hash⟩

/-- Witness for C3 (amended) at a concrete link with a query string and a
concrete fragment. -/
theorem c3_witness :
    canonicalize "/chord/9?x=1" = some "https://zh-hk.guitarians.com/chord/9?x=1" ∧
    "https://zh-hk.guitarians.com/chord/9?x=1" =
      "https://zh-hk.guitarians.com/chord/9?x=1" ∧
    canonicalize ("/chord/9" ++ "#" ++ "top") = canonicalize "/chord/9" :=
  ⟨by decide,
   c3_amended.1 "/chord/9?x=1" "https://zh-hk.guitarians.com/chord/9?x=1"
     "https://zh-hk.guitarians.com/chord/9?x=1" (by decide) (by decide),
   c3_amended.2 "/chord/9" "top"⟩

/-! ## Claim C5 -/

/-- Counterexample for C5 as stated: the harvester's filter tests the raw href
string for `/chord/`, not the link's target path.  The href `/x?y=/chord/z`
carries the marker only in its query; its target path is `/x`, yet the link is
included. -/
theorem c5_counterexample :
    isChordHref "/x?y=/chord/z" = true ∧
    scrapeLinks ["/x?y=/chord/z"] =
      some ["https://zh-hk.guitarians.com/x?y=/chord/z"] ∧
    targetPathOf "/x?y=/chord/z" = some "/x" ∧
    hasSubstr "/chord/".data "/x".data = false := by decide

/-- Claim C5 (amended): a link appears in the harvester's collection exactly
when some href of the page contains `/chord/` as a raw substring and
canonicalizes (resolve against the fixed base, rebuild dropping the fragment
and keeping the query) to that link; and canonicalization is
fragment-invariant. -/
theorem c5_amended {hrefs ls : List String} (hls : scrapeLinks hrefs = some ls) :
    (∀ x, x ∈ ls ↔ ∃ hr ∈ hrefs, isChordHref hr = true ∧ canonicalize hr = some x) ∧
    (∀ u x : String, canonicalize (u ++ "#" ++ x) = canonicalize u) :=
  ⟨scrapeLinks_mem hls, canonicalize_hash⟩

/-- Witness for C5 (amended) on a concrete page: one chord href with a
fragment, one non-chord href. -/
theorem c5_witness :
    ("https://zh-hk.guitarians.com/chord/7" ∈
      (["https://zh-hk.guitarians.com/chord/7"] : List String) ↔
      ∃ hr ∈ (["/chord/7#f", "/other"] : List String), isChordHref hr = true ∧
        canonicalize hr = some "https://zh-hk.guitarians.com/chord/7") ∧
    canonicalize ("/chord/7" ++ "#" ++ "f") = canonicalize "/chord/7" :=
  ⟨(@c5_amended ["/chord/7#f", "/other"] ["https://zh-hk.guitarians.com/chord/7"]
      (by decide)).1 "https://zh-hk.guitarians.com/chord/7",
   (@c5_amended ["/chord/7#f", "/other"] ["https://zh-hk.guitarians.com/chord/7"]
      (by decide)).2 "/chord/7" "f"⟩
